import Mathlib

/-!
# Verification of the bulkinvoicer payment-matching and balance engine

This file is a shallow embedding, in Lean 4, of the algorithmic core of the
`bulkinvoicer` repository: the FIFO payment matcher (`utils.py`,
`match_payments`), the per-client matching driver (`domain/matching.py`),
the period slicer (`domain/periods.py`), the date-period normalizer and
monthly balance engine (`domain/balances.py`), the client transaction
ledger (`domain/transactions.py`), the status breakdown
(`domain/summaries.py`), and the relevant slice of the `generate` driver
(`app/generate.py`).

Modelling conventions:
* Monetary amounts in the source are exact `Decimal` values; every
  operation the core performs on them (addition, subtraction, comparison
  with `0`, `>=` comparison) is order-and-ring-theoretic, so they are
  modelled as `Int` (exact arithmetic, no floating point).
* Polars `DataFrame`s are modelled as Lean `List`s of record structures,
  one structure field per column the core reads or writes.
* `dict.get(key)` on possibly-missing keys is modelled with `Option`.
* Dates are year/month/day triples ordered lexicographically.
-/

/-- Exact monetary amount (the source uses `Decimal`; only `+`, `-` and
order comparisons are performed on it, so `Int` is a faithful exact model). -/
abbrev Money : Type := Int

/-- A calendar date, as stored in the `sort_date` columns. -/
structure Date where
  year : Nat
  month : Nat
  day : Nat
deriving DecidableEq, Repr

/-- Injective-enough numeric key giving the chronological order of dates
(months are 1..12 and days 1..31 in real data, both below the radix). -/
def Date.key (d : Date) : Nat := (d.year * 13 + d.month) * 32 + d.day

/-- Chronological `≤` on dates. -/
def dateLe (a b : Date) : Bool := a.key ≤ b.key

/-- Chronological `<` on dates. -/
def dateLt (a b : Date) : Bool := a.key < b.key

theorem dateLe_trans {a b c : Date} (h₁ : dateLe a b = true) (h₂ : dateLe b c = true) :
    dateLe a c = true := by
  simp only [dateLe, decide_eq_true_eq] at *
  omega

theorem dateLe_total (a b : Date) : dateLe a b = true ∨ dateLe b a = true := by
  simp only [dateLe, decide_eq_true_eq]
  omega

/-- Insertion of an element into a list, before the first element it
compares `le` to.  Used to model the (deterministic) sorts the source
performs on data frames. -/
def insertLe (le : α → α → Bool) (x : α) : List α → List α
  | [] => [x]
  | y :: ys => if le x y then x :: y :: ys else y :: insertLe le x ys

/-- Insertion sort with comparator `le`; stable, structural (so it
evaluates by kernel reduction on concrete inputs). -/
def sortLe (le : α → α → Bool) : List α → List α
  | [] => []
  | x :: xs => insertLe le x (sortLe le xs)

theorem perm_insertLe (le : α → α → Bool) (x : α) (l : List α) :
    (insertLe le x l).Perm (x :: l) := by
  induction l with
  | nil => exact List.Perm.refl _
  | cons y ys ih =>
    by_cases h : le x y = true
    · simp [insertLe, h]
    · simp only [insertLe, h, if_neg]
      exact (List.Perm.cons y ih).trans (List.Perm.swap x y ys)

theorem perm_sortLe (le : α → α → Bool) (l : List α) : (sortLe le l).Perm l := by
  induction l with
  | nil => exact List.Perm.refl _
  | cons x xs ih =>
    exact ((perm_insertLe le x (sortLe le xs)).trans (List.Perm.cons x ih))

theorem sorted_insertLe (le : α → α → Bool)
    (htrans : ∀ a b c, le a b = true → le b c = true → le a c = true)
    (htotal : ∀ a b, le a b = true ∨ le b a = true)
    (x : α) (l : List α) (hl : l.Pairwise (fun a b => le a b = true)) :
    (insertLe le x l).Pairwise (fun a b => le a b = true) := by
  induction l with
  | nil => simp [insertLe]
  | cons y ys ih =>
    rcases List.pairwise_cons.mp hl with ⟨hy, hys⟩
    by_cases h : le x y = true
    · simp only [insertLe, h, if_pos]
      refine List.pairwise_cons.mpr ⟨?_, hl⟩
      intro z hz
      rcases hz with _ | hz
      · exact h
      · exact htrans x y z h (hy _ (by assumption))
    · simp only [insertLe, h, if_neg]
      refine List.pairwise_cons.mpr ⟨?_, ih hys⟩
      intro z hz
      have hperm := perm_insertLe le x ys
      have hz' : z ∈ x :: ys := hperm.mem_iff.mp hz
      rcases hz' with _ | hz'
      · rcases htotal x y with h' | h'
        · exact absurd h' h
        · exact h'
      · exact hy _ (by assumption)

theorem sorted_sortLe (le : α → α → Bool)
    (htrans : ∀ a b c, le a b = true → le b c = true → le a c = true)
    (htotal : ∀ a b, le a b = true ∨ le b a = true)
    (l : List α) : (sortLe le l).Pairwise (fun a b => le a b = true) := by
  induction l with
  | nil => simp [sortLe]
  | cons x xs ih => exact sorted_insertLe le htrans htotal x _ ih

/-! ## The FIFO payment matcher: `match_payments` in `bulkinvoicer/utils.py`

The source operates on sequences of mappings; an invoice mapping may lack
its `number` key (`invoice.get("number")` is falsy) or its `total` key
(`invoice.get("total", 0)` defaults to `0`), and similarly for receipts. -/

/-- One row of the invoice input to `match_payments` (`number`, `total`
as read with `.get`). -/
structure InvoiceIn where
  number : Option String
  total : Option Money
deriving DecidableEq, Repr

/-- One row of the receipt input to `match_payments`. -/
structure ReceiptIn where
  number : Option String
  amount : Option Money
deriving DecidableEq, Repr

/-- An entry of the working queue of unpaid invoices
(`{"number": ..., "balance": ...}` dictionaries in the source). -/
structure UnpaidInv where
  number : String
  balance : Money
deriving DecidableEq, Repr

/-- One allocation entry `{"invoice": ..., "amount": ...}`; `invoice` is
`None` for the advance-payment leftover entry. -/
structure Alloc where
  invoice : Option String
  amount : Money
deriving DecidableEq, Repr

/-- One `matched_payments` entry `{"receipt": ..., "invoices": [...]}`. -/
structure MatchedPayment where
  receipt : Option String
  invoices : List Alloc
deriving DecidableEq, Repr

/-- The first loop of `match_payments`: build the initial unpaid queue,
skipping invoices with a falsy `number` (missing key or empty string) and
defaulting a missing `total` to `0`. -/
def initQueue (invoices : List InvoiceIn) : List UnpaidInv :=
  invoices.filterMap fun i =>
    match i.number with
    | none => none
    | some n => if n = "" then none else some ⟨n, i.total.getD 0⟩

/-- The `while receipt_balance > 0 and unmatched_invoices:` loop of
`match_payments`, for a single receipt.  Returns the allocations made to
invoices, the queue left over, and the final `receipt_balance`. -/
def allocate (remaining : Money) : List UnpaidInv → List Alloc × List UnpaidInv × Money
  | [] => ([], [], remaining)
  | inv :: rest =>
    if 0 < remaining then
      if inv.balance ≤ remaining then
        -- full consumption: emit the invoice's whole balance, pop it
        let r := allocate (remaining - inv.balance) rest
        (⟨some inv.number, inv.balance⟩ :: r.1, r.2)
      else
        -- partial consumption: the invoice stays at the head, decremented
        ([⟨some inv.number, remaining⟩], ⟨inv.number, inv.balance - remaining⟩ :: rest, 0)
    else ([], inv :: rest, remaining)

/-- The body of the per-receipt iteration: run the allocation loop, then
append the `{"invoice": None, ...}` leftover entry when the receipt
balance is still positive. -/
def matchesFor (amount : Money) (queue : List UnpaidInv) : List Alloc × List UnpaidInv :=
  let r := allocate amount queue
  (r.1 ++ (if 0 < r.2.2 then [⟨none, r.2.2⟩] else []), r.2.1)

/-- The second loop of `match_payments`: fold over the receipts, threading
the unpaid-invoice queue, emitting one `matched_payments` entry per
receipt. -/
def processReceipts : List ReceiptIn → List UnpaidInv → List MatchedPayment × List UnpaidInv
  | [], queue => ([], queue)
  | r :: rs, queue =>
    let m := matchesFor (r.amount.getD 0) queue
    let rest := processReceipts rs m.2
    (⟨r.number, m.1⟩ :: rest.1, rest.2)

/-- `match_payments` from `bulkinvoicer/utils.py`: FIFO-allocate receipts
against invoice balances.  Returns `(matched_payments, unmatched_invoices)`;
when both inputs are empty it returns `([], [])` early (warn-log only). -/
def match_payments (invoices : List InvoiceIn) (receipts : List ReceiptIn) :
    List MatchedPayment × List UnpaidInv :=
  if invoices = [] ∧ receipts = [] then ([], [])
  else processReceipts receipts (initQueue invoices)

example :
    match_payments
      [⟨some "INV-1", some 100⟩, ⟨some "INV-2", some 50⟩]
      [⟨some "REC-1", some 150⟩] =
    ([⟨some "REC-1", [⟨some "INV-1", 100⟩, ⟨some "INV-2", 50⟩]⟩], []) := by decide

example :
    match_payments [⟨some "INV-1", some 80⟩] [⟨some "REC-1", some 100⟩] =
    ([⟨some "REC-1", [⟨some "INV-1", 80⟩, ⟨none, 20⟩]⟩], []) := by decide

example :
    match_payments [⟨some "INV-1", some 100⟩] [] =
    ([], [⟨"INV-1", 100⟩]) := by decide

/-- A fully-consumed invoice's allocation entry. -/
def fullAlloc (i : UnpaidInv) : Alloc := ⟨some i.number, i.balance⟩

/-- Total of the balances of a queue segment. -/
def sumBal (l : List UnpaidInv) : Money := (l.map (·.balance)).sum

/-- Total of the amounts of a list of allocation entries. -/
def sumAmt (l : List Alloc) : Money := (l.map (·.amount)).sum

theorem sumBal_nil : sumBal [] = 0 := rfl

theorem sumBal_cons (i : UnpaidInv) (l : List UnpaidInv) :
    sumBal (i :: l) = i.balance + sumBal l := by
  simp [sumBal]

theorem sumAmt_nil : sumAmt [] = 0 := rfl

theorem sumAmt_cons (a : Alloc) (l : List Alloc) :
    sumAmt (a :: l) = a.amount + sumAmt l := by
  simp [sumAmt]

theorem sumAmt_append (l₁ l₂ : List Alloc) :
    sumAmt (l₁ ++ l₂) = sumAmt l₁ + sumAmt l₂ := by
  simp [sumAmt]

/-- FIFO shape of the allocation loop: for any receipt balance and queue,
some prefix of `k` invoices is fully consumed from the head (each
allocation carrying the invoice's full balance), and then either the
queue is exhausted, or the balance is spent, or the head invoice is
partially consumed and stays at the head with its balance decremented. -/
theorem allocate_fifo (amt : Money) (Q : List UnpaidInv) :
    ∃ k, k ≤ Q.length ∧
      ((Q.drop k = [] ∧
         allocate amt Q = ((Q.take k).map fullAlloc, [], amt - sumBal (Q.take k))) ∨
       (∃ h t, Q.drop k = h :: t ∧ amt - sumBal (Q.take k) ≤ 0 ∧
         allocate amt Q = ((Q.take k).map fullAlloc, h :: t, amt - sumBal (Q.take k))) ∨
       (∃ h t, Q.drop k = h :: t ∧ 0 < amt - sumBal (Q.take k) ∧
         amt - sumBal (Q.take k) < h.balance ∧
         allocate amt Q =
           ((Q.take k).map fullAlloc ++ [⟨some h.number, amt - sumBal (Q.take k)⟩],
            ⟨h.number, h.balance - (amt - sumBal (Q.take k))⟩ :: t, 0))) := by
  induction Q generalizing amt with
  | nil =>
    exact ⟨0, Nat.le_refl 0, Or.inl ⟨rfl, by simp [allocate, sumBal]⟩⟩
  | cons inv rest ih =>
    by_cases h0 : 0 < amt
    · by_cases hfull : inv.balance ≤ amt
      · obtain ⟨k, hk, hcase⟩ := ih (amt - inv.balance)
        refine ⟨k + 1, Nat.succ_le_succ hk, ?_⟩
        have heq : allocate amt (inv :: rest) =
            (fullAlloc inv :: (allocate (amt - inv.balance) rest).1,
             (allocate (amt - inv.balance) rest).2) := by
          simp [allocate, h0, hfull, fullAlloc]
        have htake : (inv :: rest).take (k + 1) = inv :: rest.take k := rfl
        have hdrop : (inv :: rest).drop (k + 1) = rest.drop k := rfl
        have h3 : amt - sumBal ((inv :: rest).take (k + 1)) =
            amt - inv.balance - sumBal (rest.take k) := by
          rw [htake, sumBal_cons]; ring
        rcases hcase with ⟨hd, hall⟩ | ⟨h, t, hd, hle, hall⟩ | ⟨h, t, hd, hpos, hlt, hall⟩
        · refine Or.inl ⟨by rw [hdrop, hd], ?_⟩
          rw [heq, hall, h3, htake, List.map_cons]
        · refine Or.inr (Or.inl ⟨h, t, by rw [hdrop, hd], by rw [h3]; exact hle, ?_⟩)
          rw [heq, hall, h3, htake, List.map_cons]
        · refine Or.inr (Or.inr ⟨h, t, by rw [hdrop, hd],
            by rw [h3]; exact hpos, by rw [h3]; exact hlt, ?_⟩)
          rw [heq, hall, h3, htake, List.map_cons, List.cons_append]
      · have hlt : amt < inv.balance := lt_of_not_le hfull
        refine ⟨0, Nat.zero_le _, Or.inr (Or.inr ⟨inv, rest, rfl, ?_, ?_, ?_⟩)⟩
        · simp only [List.take_zero, sumBal_nil, sub_zero]
          exact h0
        · simp only [List.take_zero, sumBal_nil, sub_zero]
          exact hlt
        · simp only [List.take_zero, sumBal_nil, sub_zero, List.map_nil, List.nil_append]
          simp [allocate, h0, hfull]
    · refine ⟨0, Nat.zero_le _, Or.inr (Or.inl ⟨inv, rest, rfl, ?_, ?_⟩)⟩
      · simp only [List.take_zero, sumBal_nil, sub_zero]
        exact not_lt.mp h0
      · simp only [List.take_zero, sumBal_nil, sub_zero, List.map_nil]
        simp [allocate, h0]

/-- Conservation inside the allocation loop: allocated total plus final
receipt balance equals the initial receipt balance, and the final balance
is non-negative whenever the initial one is. -/
theorem allocate_conserves (amt : Money) (Q : List UnpaidInv) (h : 0 ≤ amt) :
    sumAmt (allocate amt Q).1 + (allocate amt Q).2.2 = amt ∧
      0 ≤ (allocate amt Q).2.2 := by
  induction Q generalizing amt with
  | nil => exact ⟨by simp [allocate, sumAmt], by simpa [allocate] using h⟩
  | cons inv rest ih =>
    by_cases h0 : 0 < amt
    · by_cases hfull : inv.balance ≤ amt
      · obtain ⟨ha, hb⟩ := ih (amt - inv.balance) (by linarith)
        have heq : allocate amt (inv :: rest) =
            (⟨some inv.number, inv.balance⟩ :: (allocate (amt - inv.balance) rest).1,
             (allocate (amt - inv.balance) rest).2) := by
          simp [allocate, h0, hfull]
        rw [heq]
        refine ⟨?_, hb⟩
        have hc : sumAmt ((⟨some inv.number, inv.balance⟩ : Alloc) ::
            (allocate (amt - inv.balance) rest).1) =
            inv.balance + sumAmt (allocate (amt - inv.balance) rest).1 := by
          simp [sumAmt]
        rw [show ((⟨some inv.number, inv.balance⟩ : Alloc) ::
            (allocate (amt - inv.balance) rest).1,
            (allocate (amt - inv.balance) rest).2).1 =
            (⟨some inv.number, inv.balance⟩ : Alloc) ::
            (allocate (amt - inv.balance) rest).1 from rfl, hc]
        have hd : ((⟨some inv.number, inv.balance⟩ :: (allocate (amt - inv.balance) rest).1,
            (allocate (amt - inv.balance) rest).2) :
            List Alloc × List UnpaidInv × Money).2.2 =
            (allocate (amt - inv.balance) rest).2.2 := rfl
        rw [hd]
        linarith [ha]
      · have heq : allocate amt (inv :: rest) =
            ([⟨some inv.number, amt⟩], ⟨inv.number, inv.balance - amt⟩ :: rest, 0) := by
          simp [allocate, h0, hfull]
        rw [heq]
        constructor
        · simp [sumAmt]
        · exact le_refl 0
    · have heq : allocate amt (inv :: rest) = ([], inv :: rest, amt) := by
        simp [allocate, h0]
      rw [heq]
      exact ⟨by simp [sumAmt], h⟩

/-- Per-receipt conservation: the allocations emitted for one receipt
(invoice allocations plus the advance leftover entry) sum to the
receipt's amount, whenever that amount is non-negative. -/
theorem matchesFor_conserves (amt : Money) (Q : List UnpaidInv) (h : 0 ≤ amt) :
    sumAmt (matchesFor amt Q).1 = amt := by
  obtain ⟨hsum, hrem⟩ := allocate_conserves amt Q h
  unfold matchesFor
  dsimp only
  by_cases hpos : 0 < (allocate amt Q).2.2
  · rw [if_pos hpos, sumAmt_append]
    have hc : sumAmt [(⟨none, (allocate amt Q).2.2⟩ : Alloc)] = (allocate amt Q).2.2 := by
      simp [sumAmt]
    rw [hc]
    linarith [hsum]
  · rw [if_neg hpos, List.append_nil]
    linarith [hsum, hrem, not_lt.mp hpos]

/-- A receipt's allocation list is empty exactly when the receipt's
amount is non-positive, independent of the queue contents. -/
theorem matchesFor_nil_iff (amt : Money) (Q : List UnpaidInv) :
    (matchesFor amt Q).1 = [] ↔ amt ≤ 0 := by
  unfold matchesFor
  dsimp only
  constructor
  · intro hnil
    rcases List.append_eq_nil.mp hnil with ⟨h1, h2⟩
    by_contra hgt
    push_neg at hgt
    cases Q with
    | nil =>
      rw [show allocate amt [] = ([], [], amt) from rfl] at h2
      rw [if_pos hgt] at h2
      exact List.cons_ne_nil _ _ h2
    | cons inv rest =>
      by_cases hfull : inv.balance ≤ amt
      · have heq : (allocate amt (inv :: rest)).1 =
            ⟨some inv.number, inv.balance⟩ :: (allocate (amt - inv.balance) rest).1 := by
          simp [allocate, hgt, hfull]
        rw [heq] at h1
        exact List.cons_ne_nil _ _ h1
      · have heq : (allocate amt (inv :: rest)).1 = [⟨some inv.number, amt⟩] := by
          simp [allocate, hgt, hfull]
        rw [heq] at h1
        exact List.cons_ne_nil _ _ h1
  · intro hle
    have hng : ¬ 0 < amt := not_lt.mpr hle
    cases Q with
    | nil => simp [allocate, hng]
    | cons inv rest => simp [allocate, hng]

/-- One matched-payments entry per receipt, in input order, carrying the
receipt's `number`. -/
theorem processReceipts_receipts (recs : List ReceiptIn) (Q : List UnpaidInv) :
    ((processReceipts recs Q).1).map (fun m => m.receipt) = recs.map (fun r => r.number) := by
  induction recs generalizing Q with
  | nil => rfl
  | cons r rs ih => simp [processReceipts, ih]

/-- Global conservation over the receipt fold: total allocated (invoice
allocations plus advance entries) equals the total of the receipt
amounts, whenever all those amounts are non-negative. -/
theorem processReceipts_conserves (recs : List ReceiptIn) (Q : List UnpaidInv)
    (h : ∀ r ∈ recs, 0 ≤ r.amount.getD 0) :
    (((processReceipts recs Q).1).map (fun m => sumAmt m.invoices)).sum =
      (recs.map (fun r => r.amount.getD 0)).sum := by
  induction recs generalizing Q with
  | nil => rfl
  | cons r rs ih =>
    have h0 : 0 ≤ r.amount.getD 0 := h r (List.mem_cons_self r rs)
    have hrest : ∀ x ∈ rs, 0 ≤ x.amount.getD 0 := fun x hx => h x (List.mem_cons_of_mem r hx)
    simp only [processReceipts, List.map_cons, List.sum_cons]
    rw [matchesFor_conserves (r.amount.getD 0) Q h0, ih _ hrest]

/-- Per-entry characterisation of the allocation lists over the whole
fold: the entry for each receipt has an empty allocation list exactly
when the receipt's amount (defaulted to 0) is non-positive. -/
theorem processReceipts_nil_iff (recs : List ReceiptIn) (Q : List UnpaidInv) :
    List.Forall₂ (fun (m : MatchedPayment) (r : ReceiptIn) =>
      m.invoices = [] ↔ r.amount.getD 0 ≤ 0) (processReceipts recs Q).1 recs := by
  induction recs generalizing Q with
  | nil => exact List.Forall₂.nil
  | cons r rs ih =>
    simp only [processReceipts]
    exact List.Forall₂.cons (matchesFor_nil_iff (r.amount.getD 0) Q) (ih _)

/-- With an empty invoice queue every receipt keeps its queue empty and
gets either a single advance entry or no allocations at all. -/
theorem processReceipts_no_invoices (recs : List ReceiptIn) :
    processReceipts recs [] =
      (recs.map (fun r => ⟨r.number,
        if 0 < r.amount.getD 0 then [⟨none, r.amount.getD 0⟩] else []⟩), []) := by
  induction recs with
  | nil => rfl
  | cons r rs ih =>
    have hm : matchesFor (r.amount.getD 0) [] =
        ((if 0 < r.amount.getD 0 then [⟨none, r.amount.getD 0⟩] else []), []) := by
      unfold matchesFor allocate
      simp
    simp only [processReceipts, hm, ih, List.map_cons]

/-- **Claim C1.** `match_payments` returns exactly one `matched_payments`
entry per input receipt, in input order (first conjunct); the returned
`unpaid_invoices` is the residual unpaid queue threaded through the
receipt fold (second conjunct); each receipt's allocations are produced
FIFO from the head of the unpaid-invoice queue — some prefix of `k`
invoices is fully consumed (each allocation carrying the invoice's whole
current balance, the invoice being popped), after which either the queue
is exhausted with the leftover balance returned, or the balance is spent,
or the head invoice is partially consumed: it receives an allocation for
the whole remaining amount and stays at the head with its balance
decremented (third conjunct); and the concrete scenario of the claim —
invoices `[INV-1: 100, INV-2: 50]` with one receipt `REC-1: 150` — yields
the stated single matched entry and an empty unpaid list (fourth
conjunct). -/
theorem match_payments_fifo_correct :
    (∀ (invs : List InvoiceIn) (recs : List ReceiptIn),
      ((match_payments invs recs).1).map (fun m => m.receipt) =
        recs.map (fun r => r.number)) ∧
    (∀ (invs : List InvoiceIn) (recs : List ReceiptIn),
      (match_payments invs recs).2 = (processReceipts recs (initQueue invs)).2) ∧
    (∀ (amt : Money) (Q : List UnpaidInv),
      ∃ k, k ≤ Q.length ∧
        ((Q.drop k = [] ∧
           allocate amt Q = ((Q.take k).map fullAlloc, [], amt - sumBal (Q.take k))) ∨
         (∃ h t, Q.drop k = h :: t ∧ amt - sumBal (Q.take k) ≤ 0 ∧
           allocate amt Q = ((Q.take k).map fullAlloc, h :: t, amt - sumBal (Q.take k))) ∨
         (∃ h t, Q.drop k = h :: t ∧ 0 < amt - sumBal (Q.take k) ∧
           amt - sumBal (Q.take k) < h.balance ∧
           allocate amt Q =
             ((Q.take k).map fullAlloc ++ [⟨some h.number, amt - sumBal (Q.take k)⟩],
              ⟨h.number, h.balance - (amt - sumBal (Q.take k))⟩ :: t, 0)))) ∧
    (match_payments
        [⟨some "INV-1", some 100⟩, ⟨some "INV-2", some 50⟩]
        [⟨some "REC-1", some 150⟩] =
      ([⟨some "REC-1", [⟨some "INV-1", 100⟩, ⟨some "INV-2", 50⟩]⟩], [])) := by
  refine ⟨?_, ?_, allocate_fifo, by decide⟩
  · intro invs recs
    unfold match_payments
    by_cases hb : invs = [] ∧ recs = []
    · rw [if_pos hb, hb.2]
      rfl
    · rw [if_neg hb]
      exact processReceipts_receipts recs (initQueue invs)
  · intro invs recs
    unfold match_payments
    by_cases hb : invs = [] ∧ recs = []
    · rw [if_pos hb, hb.1, hb.2]
      rfl
    · rw [if_neg hb]

/-- **Claim C2.** Conservation: when every receipt amount is positive,
the sum of the receipt amounts equals the sum of all allocation amounts
(invoice allocations and `invoice = None` advance entries combined)
emitted by `match_payments`. -/
theorem match_payments_conservation (invs : List InvoiceIn) (recs : List ReceiptIn)
    (h : ∀ r ∈ recs, 0 < r.amount.getD 0) :
    (recs.map (fun r => r.amount.getD 0)).sum =
      (((match_payments invs recs).1).map (fun m => sumAmt m.invoices)).sum := by
  unfold match_payments
  by_cases hb : invs = [] ∧ recs = []
  · rw [if_pos hb, hb.2]
    rfl
  · rw [if_neg hb]
    exact (processReceipts_conserves recs (initQueue invs)
      (fun r hr => le_of_lt (h r hr))).symm

/-- Witness for the conservation claim: a concrete run with two invoices
and two positive receipts. -/
theorem match_payments_conservation_witness :
    (∀ r ∈ ([⟨some "REC-1", some 120⟩, ⟨some "REC-2", some 40⟩] : List ReceiptIn),
        0 < r.amount.getD 0) ∧
    (([⟨some "REC-1", some 120⟩, ⟨some "REC-2", some 40⟩] : List ReceiptIn).map
        (fun r => r.amount.getD 0)).sum =
      (((match_payments [⟨some "INV-1", some 100⟩, ⟨some "INV-2", some 50⟩]
          [⟨some "REC-1", some 120⟩, ⟨some "REC-2", some 40⟩]).1).map
        (fun m => sumAmt m.invoices)).sum :=
  ⟨by decide, match_payments_conservation
    [⟨some "INV-1", some 100⟩, ⟨some "INV-2", some 50⟩]
    [⟨some "REC-1", some 120⟩, ⟨some "REC-2", some 40⟩] (by decide)⟩

/-- **Claim C10.** In `match_payments`, a receipt's allocation list is
empty exactly when the receipt's amount (a missing amount defaulting to
`0`) is non-positive (first conjunct, pairwise over the output which has
one entry per receipt); with no invoices at all, each positive receipt
gets exactly the single advance entry `{invoice: None, amount: full}`
(second conjunct); and a matched entry is emitted for every receipt in
every case (third conjunct). -/
theorem match_payments_alloc_empty_iff :
    (∀ (invs : List InvoiceIn) (recs : List ReceiptIn),
      List.Forall₂ (fun (m : MatchedPayment) (r : ReceiptIn) =>
        m.invoices = [] ↔ r.amount.getD 0 ≤ 0) (match_payments invs recs).1 recs) ∧
    (∀ recs : List ReceiptIn,
      match_payments [] recs =
        (recs.map (fun r => ⟨r.number,
          if 0 < r.amount.getD 0 then [⟨none, r.amount.getD 0⟩] else []⟩), [])) ∧
    (∀ (invs : List InvoiceIn) (recs : List ReceiptIn),
      ((match_payments invs recs).1).length = recs.length) := by
  have hmain : ∀ (invs : List InvoiceIn) (recs : List ReceiptIn),
      List.Forall₂ (fun (m : MatchedPayment) (r : ReceiptIn) =>
        m.invoices = [] ↔ r.amount.getD 0 ≤ 0) (match_payments invs recs).1 recs := by
    intro invs recs
    unfold match_payments
    by_cases hb : invs = [] ∧ recs = []
    · rw [if_pos hb, hb.2]
      exact List.Forall₂.nil
    · rw [if_neg hb]
      exact processReceipts_nil_iff recs (initQueue invs)
  refine ⟨hmain, ?_, ?_⟩
  · intro recs
    unfold match_payments
    by_cases hr : recs = []
    · subst hr
      rw [if_pos ⟨rfl, rfl⟩]
      rfl
    · rw [if_neg (fun hb => hr hb.2)]
      exact processReceipts_no_invoices recs
  · intro invs recs
    exact List.Forall₂.length_eq (hmain invs recs)

/-! ## The per-client driver: `match_payments_by_client` in
`bulkinvoicer/domain/matching.py`

Data-frame rows are modelled with one field per column the driver (and
the other domain functions below) reads: `client`, `number`, `sort_date`,
`date` and the monetary column.  Join-back is by receipt/invoice `number`;
the source's left join is modelled with `List.find?`, which agrees with
it under the documented invariant that `number` is unique. -/

/-- A row of the prepared invoices frame. -/
structure InvoiceRow where
  client : String
  number : String
  sort_date : Date
  date : Date
  total : Money
deriving DecidableEq, Repr

/-- A row of the prepared receipts frame. -/
structure ReceiptRow where
  client : String
  number : String
  sort_date : Date
  date : Date
  amount : Money
deriving DecidableEq, Repr

/-- The per-client matching loop body: filter both frames to one client,
sort each by `sort_date`, keep only `number` and the monetary column, and
run `match_payments`. -/
def matchClient (dfI : List InvoiceRow) (dfR : List ReceiptRow) (c : String) :
    List MatchedPayment × List UnpaidInv :=
  match_payments
    ((sortLe (fun a b => dateLe a.sort_date b.sort_date)
        (dfI.filter (fun i => decide (i.client = c)))).map
      (fun i => InvoiceIn.mk (some i.number) (some i.total)))
    ((sortLe (fun a b => dateLe a.sort_date b.sort_date)
        (dfR.filter (fun r => decide (r.client = c)))).map
      (fun r => ReceiptIn.mk (some r.number) (some r.amount)))

/-- The concatenated `matched` lists accumulated over the per-client loop
(the loop iterates over the distinct clients of the receipts frame). -/
def matchedAll (dfI : List InvoiceRow) (dfR : List ReceiptRow) : List MatchedPayment :=
  (((dfR.map (fun r => r.client)).dedup).map (fun c => (matchClient dfI dfR c).1)).flatten

/-- The concatenated `unpaid` lists accumulated over the per-client loop. -/
def unpaidAll (dfI : List InvoiceRow) (dfR : List ReceiptRow) : List UnpaidInv :=
  (((dfR.map (fun r => r.client)).dedup).map (fun c => (matchClient dfI dfR c).2)).flatten

/-- `match_payments_by_client` from `bulkinvoicer/domain/matching.py`.
Output: the invoice rows each paired with their joined `balance` column
(`none` = no match in the unpaid result), and the receipt rows each
paired with their joined `invoices` column. -/
def match_payments_by_client (dfI : List InvoiceRow) (dfR : List ReceiptRow) :
    List (InvoiceRow × Option Money) × List (ReceiptRow × Option (List Alloc)) :=
  if dfI = [] ∧ dfR = [] then ([], [])
  else if dfR = [] then
    -- no receipts: all invoices remain unpaid, balance = total
    (dfI.map (fun i => (i, some i.total)), [])
  else
    (dfI.map (fun i =>
        (i, ((unpaidAll dfI dfR).find? (fun u => decide (u.number = i.number))).map
          (fun u => u.balance))),
     dfR.map (fun r =>
        (r, ((matchedAll dfI dfR).find? (fun m => decide (m.receipt = some r.number))).map
          (fun m => m.invoices))))

/-- The allocation loop never invents queue entries: every number in the
resulting queue was in the input queue. -/
theorem allocate_queue_numbers (amt : Money) (Q : List UnpaidInv) :
    ∀ u ∈ (allocate amt Q).2.1, u.number ∈ Q.map (fun q => q.number) := by
  induction Q generalizing amt with
  | nil => intro u hu; simp [allocate] at hu
  | cons inv rest ih =>
    intro u hu
    by_cases h0 : 0 < amt
    · by_cases hfull : inv.balance ≤ amt
      · have heq : (allocate amt (inv :: rest)).2.1 =
            (allocate (amt - inv.balance) rest).2.1 := by
          simp [allocate, h0, hfull]
        rw [heq] at hu
        exact List.mem_cons_of_mem _ (ih _ u hu)
      · have heq : (allocate amt (inv :: rest)).2.1 =
            ⟨inv.number, inv.balance - amt⟩ :: rest := by
          simp [allocate, h0, hfull]
        rw [heq] at hu
        rcases List.mem_cons.mp hu with h | h
        · subst h; exact List.mem_cons_self _ _
        · exact List.mem_cons_of_mem _ (List.mem_map_of_mem _ h)
    · have heq : (allocate amt (inv :: rest)).2.1 = inv :: rest := by
        simp [allocate, h0]
      rw [heq] at hu
      rcases List.mem_cons.mp hu with h | h
      · subst h; exact List.mem_cons_self _ _
      · exact List.mem_cons_of_mem _ (List.mem_map_of_mem _ h)

/-- The receipt fold never invents queue entries either. -/
theorem processReceipts_queue_numbers (recs : List ReceiptIn) (Q : List UnpaidInv) :
    ∀ u ∈ (processReceipts recs Q).2, u.number ∈ Q.map (fun q => q.number) := by
  induction recs generalizing Q with
  | nil => intro u hu; exact List.mem_map_of_mem _ hu
  | cons r rs ih =>
    intro u hu
    have hu' := ih (matchesFor (r.amount.getD 0) Q).2 u hu
    have hq : ∀ n ∈ ((matchesFor (r.amount.getD 0) Q).2).map (fun q => q.number),
        n ∈ Q.map (fun q => q.number) := by
      intro n hn
      rcases List.mem_map.mp hn with ⟨v, hv, hvn⟩
      rw [← hvn]
      exact allocate_queue_numbers (r.amount.getD 0) Q v hv
    exact hq _ hu'

/-- Numbers in the initial queue come from invoices with that (truthy)
number. -/
theorem initQueue_numbers (invs : List InvoiceIn) :
    ∀ n ∈ (initQueue invs).map (fun q => q.number),
      some n ∈ invs.map (fun i => i.number) := by
  intro n hn
  rcases List.mem_map.mp hn with ⟨u, hu, hun⟩
  rcases List.mem_filterMap.mp hu with ⟨i, hi, hiu⟩
  rcases hnum : i.number with _ | m
  · simp only [hnum] at hiu
    exact absurd hiu (by simp)
  · simp only [hnum] at hiu
    by_cases hm : m = ""
    · rw [if_pos hm] at hiu
      exact absurd hiu (by simp)
    · rw [if_neg hm] at hiu
      have hum : u = ⟨m, i.total.getD 0⟩ := by
        injection hiu with h; exact h.symm
      have hnm : n = m := by rw [← hun, hum]
      rw [hnm, ← hnum]
      exact List.mem_map_of_mem _ hi

/-- Unpaid invoices returned by `match_payments` carry numbers of input
invoices. -/
theorem match_payments_unpaid_numbers (invs : List InvoiceIn) (recs : List ReceiptIn) :
    ∀ u ∈ (match_payments invs recs).2,
      some u.number ∈ invs.map (fun i => i.number) := by
  intro u hu
  unfold match_payments at hu
  by_cases hb : invs = [] ∧ recs = []
  · rw [if_pos hb] at hu
    exact absurd hu (by simp)
  · rw [if_neg hb] at hu
    exact initQueue_numbers invs _
      (processReceipts_queue_numbers recs (initQueue invs) u hu)

/-- **Claim C4 counterexample.** The claim fails as stated: here client
`"A"` submitted no receipts at all, yet — because another client's
receipt makes the receipts frame non-empty — the driver leaves the
invoice's joined balance `none` rather than setting it to the total
(matching the repository's own test expectation `inv_bal["INV-C3-1"] is
None`). -/
theorem match_payments_by_client_no_receipts_counterexample :
    (match_payments_by_client
        [⟨"A", "INV-1", ⟨2024, 1, 1⟩, ⟨2024, 1, 1⟩, 100⟩]
        [⟨"B", "REC-1", ⟨2024, 1, 2⟩, ⟨2024, 1, 2⟩, 50⟩]).1 =
      [(⟨"A", "INV-1", ⟨2024, 1, 1⟩, ⟨2024, 1, 1⟩, 100⟩, none)] ∧
    (none : Option Money) ≠ some (100 : Money) := by
  exact ⟨by decide, by decide⟩

/-- **Claim C4 (amended).** The driver sets `balance = total` for every
invoice exactly on the shortcut path, i.e. when the whole receipts frame
is empty (first conjunct); when any receipts exist, an invoice of a
client that submitted no receipts is returned with `balance = none`
(second conjunct; the hypothesis that `number` determines the client
reflects the documented uniqueness of invoice numbers, under which the
left join cannot pick up another client's unpaid entry). -/
theorem match_payments_by_client_balance_semantics :
    (∀ dfI : List InvoiceRow,
      match_payments_by_client dfI [] = (dfI.map (fun i => (i, some i.total)), [])) ∧
    (∀ (dfI : List InvoiceRow) (dfR : List ReceiptRow) (i : InvoiceRow),
      i ∈ dfI → dfR ≠ [] →
      (∀ j ∈ dfI, j.number = i.number → j.client = i.client) →
      (∀ r ∈ dfR, r.client ≠ i.client) →
      (i, (none : Option Money)) ∈ (match_payments_by_client dfI dfR).1) := by
  constructor
  · intro dfI
    by_cases hI : dfI = []
    · subst hI; rfl
    · unfold match_payments_by_client
      rw [if_neg (fun hb => hI hb.1), if_pos rfl]
  · intro dfI dfR i hi hR hnum hnoc
    unfold match_payments_by_client
    rw [if_neg (fun hb => hR hb.2), if_neg hR]
    have hfind : (unpaidAll dfI dfR).find? (fun u => decide (u.number = i.number)) = none := by
      rw [List.find?_eq_none]
      intro u hu hpred
      have hun : u.number = i.number := of_decide_eq_true hpred
      rcases List.mem_flatten.mp hu with ⟨l, hl, hul⟩
      rcases List.mem_map.mp hl with ⟨c, hc, hcl⟩
      rw [← hcl] at hul
      have hmem := match_payments_unpaid_numbers _ _ u hul
      rw [List.map_map] at hmem
      rcases List.mem_map.mp hmem with ⟨j, hj, hjn⟩
      have hjn' : j.number = u.number := by
        have : (fun i => i.number) ∘ (fun i : InvoiceRow =>
            InvoiceIn.mk (some i.number) (some i.total)) = fun i => some i.number := rfl
        rw [this] at hjn
        exact Option.some.inj hjn
      have hjmem : j ∈ dfI.filter (fun x => decide (x.client = c)) :=
        (perm_sortLe _ _).mem_iff.mp hj
      rcases List.mem_filter.mp hjmem with ⟨hjI, hjc⟩
      have hjc' : j.client = c := of_decide_eq_true hjc
      have hji : j.client = i.client := hnum j hjI (by rw [hjn', hun])
      rcases List.mem_dedup.mp hc with hc'
      rcases List.mem_map.mp hc' with ⟨r, hr, hrc⟩
      exact hnoc r hr (by rw [hrc, ← hjc', hji])
    exact List.mem_map.mpr ⟨i, hi, by rw [hfind]; rfl⟩

/-- Witness for the amended C4: the counterexample input, where the
lone invoice of receipt-less client `"A"` indeed joins to `balance =
none`. -/
theorem match_payments_by_client_balance_semantics_witness :
    ((⟨"A", "INV-1", ⟨2024, 1, 1⟩, ⟨2024, 1, 1⟩, 100⟩ : InvoiceRow),
      (none : Option Money)) ∈
      (match_payments_by_client
        [⟨"A", "INV-1", ⟨2024, 1, 1⟩, ⟨2024, 1, 1⟩, 100⟩]
        [⟨"B", "REC-1", ⟨2024, 1, 2⟩, ⟨2024, 1, 2⟩, 50⟩]).1 :=
  match_payments_by_client_balance_semantics.2 _ _ _
    (by decide) (by decide) (by decide) (by decide)

/-! ## Period slicing: `bulkinvoicer/domain/periods.py` -/

/-- Lexicographic comparison of character lists (models the order polars
uses to sort a `Utf8` column). -/
def charListLe : List Char → List Char → Bool
  | [], _ => true
  | _ :: _, [] => false
  | a :: as, b :: bs =>
    if a.toNat < b.toNat then true
    else if b.toNat < a.toNat then false
    else charListLe as bs

/-- Lexicographic `≤` on strings. -/
def strLe (a b : String) : Bool := charListLe a.data b.data

theorem charListLe_trans {x y z : List Char} (h1 : charListLe x y = true)
    (h2 : charListLe y z = true) : charListLe x z = true := by
  induction x generalizing y z with
  | nil => rfl
  | cons a as ih =>
    cases y with
    | nil => simp [charListLe] at h1
    | cons b bs =>
      cases z with
      | nil => simp [charListLe] at h2
      | cons c cs =>
        simp only [charListLe] at h1 h2 ⊢
        by_cases hab : a.toNat < b.toNat
        · by_cases hbc : b.toNat < c.toNat
          · rw [if_pos (by omega)]
          · by_cases hcb : c.toNat < b.toNat
            · rw [if_neg hbc, if_pos hcb] at h2
              exact absurd h2 (by simp)
            · rw [if_pos (by omega)]
        · by_cases hba : b.toNat < a.toNat
          · rw [if_neg hab, if_pos hba] at h1
            exact absurd h1 (by simp)
          · rw [if_neg hab, if_neg hba] at h1
            by_cases hbc : b.toNat < c.toNat
            · rw [if_pos (by omega)]
            · by_cases hcb : c.toNat < b.toNat
              · rw [if_neg hbc, if_pos hcb] at h2
                exact absurd h2 (by simp)
              · rw [if_neg hbc, if_neg hcb] at h2
                rw [if_neg (by omega), if_neg (by omega)]
                exact ih h1 h2

theorem charListLe_total (x y : List Char) :
    charListLe x y = true ∨ charListLe y x = true := by
  induction x generalizing y with
  | nil => exact Or.inl rfl
  | cons a as ih =>
    cases y with
    | nil => exact Or.inr rfl
    | cons b bs =>
      simp only [charListLe]
      by_cases hab : a.toNat < b.toNat
      · exact Or.inl (by rw [if_pos hab])
      · by_cases hba : b.toNat < a.toNat
        · exact Or.inr (by rw [if_pos hba])
        · rcases ih bs with h | h
          · exact Or.inl (by rw [if_neg hab, if_neg hba]; exact h)
          · exact Or.inr (by rw [if_neg hba, if_neg hab]; exact h)

theorem strLe_trans {x y z : String} (h1 : strLe x y = true) (h2 : strLe y z = true) :
    strLe x z = true := charListLe_trans h1 h2

theorem strLe_total (x y : String) : strLe x y = true ∨ strLe y x = true :=
  charListLe_total x.data y.data

/-- The six frames produced by `slice_period_frames`. -/
structure PeriodFrames where
  invoices_report : List InvoiceRow
  receipts_report : List ReceiptRow
  invoices_open : List InvoiceRow
  receipts_open : List ReceiptRow
  invoices_close : List InvoiceRow
  receipts_close : List ReceiptRow
deriving DecidableEq, Repr

/-- `slice_period_frames` from `bulkinvoicer/domain/periods.py`.  The
reassignment chain of the source is mirrored: the report frames start as
the full inputs and are narrowed by each bound that is present; the open
frames are the strict-before-start filters (empty when `start_date` is
absent, via the source's `filter(False)`); the close frames are the
up-to-end filters (the unfiltered input when `end_date` is absent);
finally the report frames are sorted by `number`. -/
def slice_period_frames (dfI : List InvoiceRow) (dfR : List ReceiptRow)
    (start_date end_date : Option Date) : PeriodFrames :=
  let afterStart : List InvoiceRow × List ReceiptRow × List InvoiceRow × List ReceiptRow :=
    match start_date with
    | some sd => (dfI.filter (fun r => dateLe sd r.sort_date),
                  dfR.filter (fun r => dateLe sd r.sort_date),
                  dfI.filter (fun r => dateLt r.sort_date sd),
                  dfR.filter (fun r => dateLt r.sort_date sd))
    | none => (dfI, dfR, dfI.filter (fun _ => false), dfR.filter (fun _ => false))
  let afterEnd : List InvoiceRow × List ReceiptRow × List InvoiceRow × List ReceiptRow :=
    match end_date with
    | some ed => (afterStart.1.filter (fun r => dateLe r.sort_date ed),
                  afterStart.2.1.filter (fun r => dateLe r.sort_date ed),
                  dfI.filter (fun r => dateLe r.sort_date ed),
                  dfR.filter (fun r => dateLe r.sort_date ed))
    | none => (afterStart.1, afterStart.2.1, dfI, dfR)
  ⟨sortLe (fun a b => strLe a.number b.number) afterEnd.1,
   sortLe (fun a b => strLe a.number b.number) afterEnd.2.1,
   afterStart.2.2.1, afterStart.2.2.2,
   afterEnd.2.2.1, afterEnd.2.2.2⟩

/-- The open-slice membership predicate of the claim: strictly before
`start_date`, never satisfied when `start_date` is absent. -/
def openPred (start_date : Option Date) (d : Date) : Bool :=
  match start_date with
  | some sd => dateLt d sd
  | none => false

/-- The close-slice membership predicate: at-or-before `end_date`, always
satisfied when `end_date` is absent. -/
def closePred (end_date : Option Date) (d : Date) : Bool :=
  match end_date with
  | some ed => dateLe d ed
  | none => true

/-- The report-slice membership predicate: inside the window, applying
only the bounds that are present. -/
def reportPred (start_date end_date : Option Date) (d : Date) : Bool :=
  (match start_date with
   | some sd => dateLe sd d
   | none => true) &&
  (match end_date with
   | some ed => dateLe d ed
   | none => true)

theorem filter_const_true (l : List α) : l.filter (fun _ => true) = l := by
  induction l with
  | nil => rfl
  | cons x xs ih => simp [List.filter_cons, ih]

theorem filter_filter_and (p q : α → Bool) (l : List α) :
    (l.filter p).filter q = l.filter (fun a => p a && q a) := by
  induction l with
  | nil => rfl
  | cons x xs ih =>
    by_cases hp : p x = true <;> by_cases hq : q x = true <;>
      simp [List.filter_cons, hp, hq, ih]

/-- **Claim C5.** `slice_period_frames` computes: the open slices as
exactly the records with `sort_date < start_date` (empty when
`start_date` is absent); the close slices as exactly the records with
`sort_date <= end_date` (the full input when `end_date` is absent); and
the report slices as exactly the records satisfying every present bound
`start_date <= sort_date <= end_date`, sorted by `number`.  All three are
filters over the same full-history input, so a record dated exactly on a
bound is in the report slice and a record one day before `start_date` is
in the open slice but not the report slice. -/
theorem slice_period_frames_spec (dfI : List InvoiceRow) (dfR : List ReceiptRow)
    (s e : Option Date) :
    (slice_period_frames dfI dfR s e).invoices_open
        = dfI.filter (fun r => openPred s r.sort_date) ∧
    (slice_period_frames dfI dfR s e).receipts_open
        = dfR.filter (fun r => openPred s r.sort_date) ∧
    (slice_period_frames dfI dfR s e).invoices_close
        = dfI.filter (fun r => closePred e r.sort_date) ∧
    (slice_period_frames dfI dfR s e).receipts_close
        = dfR.filter (fun r => closePred e r.sort_date) ∧
    ((slice_period_frames dfI dfR s e).invoices_report).Perm
        (dfI.filter (fun r => reportPred s e r.sort_date)) ∧
    ((slice_period_frames dfI dfR s e).receipts_report).Perm
        (dfR.filter (fun r => reportPred s e r.sort_date)) ∧
    ((slice_period_frames dfI dfR s e).invoices_report).Pairwise
        (fun a b => strLe a.number b.number = true) ∧
    ((slice_period_frames dfI dfR s e).receipts_report).Pairwise
        (fun a b => strLe a.number b.number = true) := by
  have hsortI : ∀ l : List InvoiceRow,
      (sortLe (fun a b => strLe a.number b.number) l).Pairwise
        (fun a b => strLe a.number b.number = true) :=
    sorted_sortLe _ (fun _ _ _ hab hbc => strLe_trans hab hbc)
      (fun a b => strLe_total a.number b.number)
  have hsortR : ∀ l : List ReceiptRow,
      (sortLe (fun a b => strLe a.number b.number) l).Pairwise
        (fun a b => strLe a.number b.number = true) :=
    sorted_sortLe _ (fun _ _ _ hab hbc => strLe_trans hab hbc)
      (fun a b => strLe_total a.number b.number)
  cases s with
  | none =>
    cases e with
    | none =>
      refine ⟨rfl, rfl, ?_, ?_, ?_, ?_, hsortI _, hsortR _⟩
      · exact (filter_const_true dfI).symm
      · exact (filter_const_true dfR).symm
      · show (sortLe (fun a b => strLe a.number b.number) dfI).Perm
          (dfI.filter (fun _ => true))
        rw [filter_const_true]
        exact perm_sortLe _ _
      · show (sortLe (fun a b => strLe a.number b.number) dfR).Perm
          (dfR.filter (fun _ => true))
        rw [filter_const_true]
        exact perm_sortLe _ _
    | some ed =>
      refine ⟨rfl, rfl, rfl, rfl, ?_, ?_, hsortI _, hsortR _⟩
      · show (sortLe (fun a b => strLe a.number b.number)
            (dfI.filter (fun r => dateLe r.sort_date ed))).Perm
          (dfI.filter (fun r => true && dateLe r.sort_date ed))
        have : dfI.filter (fun r => true && dateLe r.sort_date ed)
            = dfI.filter (fun r => dateLe r.sort_date ed) :=
          List.filter_congr (fun a _ => by rw [Bool.true_and])
        rw [this]
        exact perm_sortLe _ _
      · show (sortLe (fun a b => strLe a.number b.number)
            (dfR.filter (fun r => dateLe r.sort_date ed))).Perm
          (dfR.filter (fun r => true && dateLe r.sort_date ed))
        have : dfR.filter (fun r => true && dateLe r.sort_date ed)
            = dfR.filter (fun r => dateLe r.sort_date ed) :=
          List.filter_congr (fun a _ => by rw [Bool.true_and])
        rw [this]
        exact perm_sortLe _ _
  | some sd =>
    cases e with
    | none =>
      refine ⟨rfl, rfl, ?_, ?_, ?_, ?_, hsortI _, hsortR _⟩
      · exact (filter_const_true dfI).symm
      · exact (filter_const_true dfR).symm
      · show (sortLe (fun a b => strLe a.number b.number)
            (dfI.filter (fun r => dateLe sd r.sort_date))).Perm
          (dfI.filter (fun r => dateLe sd r.sort_date && true))
        have : dfI.filter (fun r => dateLe sd r.sort_date && true)
            = dfI.filter (fun r => dateLe sd r.sort_date) :=
          List.filter_congr (fun a _ => by rw [Bool.and_true])
        rw [this]
        exact perm_sortLe _ _
      · show (sortLe (fun a b => strLe a.number b.number)
            (dfR.filter (fun r => dateLe sd r.sort_date))).Perm
          (dfR.filter (fun r => dateLe sd r.sort_date && true))
        have : dfR.filter (fun r => dateLe sd r.sort_date && true)
            = dfR.filter (fun r => dateLe sd r.sort_date) :=
          List.filter_congr (fun a _ => by rw [Bool.and_true])
        rw [this]
        exact perm_sortLe _ _
    | some ed =>
      refine ⟨rfl, rfl, rfl, rfl, ?_, ?_, hsortI _, hsortR _⟩
      · show (sortLe (fun a b => strLe a.number b.number)
            ((dfI.filter (fun r => dateLe sd r.sort_date)).filter
              (fun r => dateLe r.sort_date ed))).Perm
          (dfI.filter (fun r => dateLe sd r.sort_date && dateLe r.sort_date ed))
        rw [← filter_filter_and]
        exact perm_sortLe _ _
      · show (sortLe (fun a b => strLe a.number b.number)
            ((dfR.filter (fun r => dateLe sd r.sort_date)).filter
              (fun r => dateLe r.sort_date ed))).Perm
          (dfR.filter (fun r => dateLe sd r.sort_date && dateLe r.sort_date ed))
        rw [← filter_filter_and]
        exact perm_sortLe _ _

/-! ## Date-period normalization and the `generate` validation order
(`bulkinvoicer/domain/balances.py`, `bulkinvoicer/domain/periods.py`,
`bulkinvoicer/app/generate.py`) -/

/-- The `expected_start_date` computed inside `normalize_date_period`:
January 1 of the end year when the end month is December, otherwise the
1st of month `end_month + 1` of the previous year. -/
def expected_start_date (endD : Date) : Date :=
  if endD.month = 12 then ⟨endD.year, 1, 1⟩ else ⟨endD.year - 1, endD.month + 1, 1⟩

/-- `normalize_date_period` from `bulkinvoicer/domain/balances.py`.
`datetime.datetime.now().date()` is an external input, passed here as
`today`; the Boolean records whether the clamping warning was logged. -/
def normalize_date_period (today : Date) (start_date end_date : Option Date) :
    Date × Date × Bool :=
  let endD := end_date.getD today
  match start_date with
  | none => (expected_start_date endD, endD, false)
  | some sd =>
    if dateLt sd (expected_start_date endD) then (expected_start_date endD, endD, true)
    else (sd, endD, false)

/-- **Claim C6.** `normalize_date_period` returns `end_date` unchanged
(today when absent); the start it returns is `expected_start_date` —
January 1 of the end year for December ends, otherwise the 1st of
`(end_month + 1)` of the previous year — whenever the given start is
absent, or earlier than `expected_start_date` (in which case the warning
flag is set); a start on or after `expected_start_date` is returned
unchanged with no warning. -/
theorem normalize_date_period_spec (today : Date) (s e : Option Date) :
    (normalize_date_period today s e).2.1 = e.getD today ∧
    (expected_start_date (e.getD today) =
      if (e.getD today).month = 12 then (⟨(e.getD today).year, 1, 1⟩ : Date)
      else ⟨(e.getD today).year - 1, (e.getD today).month + 1, 1⟩) ∧
    (s = none →
      normalize_date_period today s e =
        (expected_start_date (e.getD today), e.getD today, false)) ∧
    (∀ sd, s = some sd → dateLt sd (expected_start_date (e.getD today)) = true →
      normalize_date_period today s e =
        (expected_start_date (e.getD today), e.getD today, true)) ∧
    (∀ sd, s = some sd → dateLt sd (expected_start_date (e.getD today)) = false →
      normalize_date_period today s e = (sd, e.getD today, false)) := by
  refine ⟨?_, rfl, ?_, ?_, ?_⟩
  · cases s with
    | none => rfl
    | some sd =>
      by_cases h : dateLt sd (expected_start_date (e.getD today)) = true
      · simp [normalize_date_period, h]
      · simp only [Bool.not_eq_true] at h
        simp [normalize_date_period, h]
  · intro hs; subst hs; rfl
  · intro sd hs h
    subst hs
    simp [normalize_date_period, h]
  · intro sd hs h
    subst hs
    simp [normalize_date_period, h]

/-- Witness for C6: end 2025-03-15 gives expected start 2024-04-01; the
given start 2024-01-01 is earlier, so it is clamped and the warning flag
is set. -/
theorem normalize_date_period_spec_witness :
    normalize_date_period ⟨2025, 10, 12⟩ (some ⟨2024, 1, 1⟩) (some ⟨2025, 3, 15⟩) =
      (⟨2024, 4, 1⟩, ⟨2025, 3, 15⟩, true) :=
  ((normalize_date_period_spec ⟨2025, 10, 12⟩ (some ⟨2024, 1, 1⟩)
      (some ⟨2025, 3, 15⟩)).2.2.2.1 ⟨2024, 1, 1⟩ rfl (by decide)).trans (by decide)

/-- Rendering of a date into period text (the source formats with the
configured `date_format`; a fixed year-month-day rendering is used
here). -/
def dateText (d : Date) : String :=
  toString d.year ++ "-" ++ toString d.month ++ "-" ++ toString d.day

/-- `get_reporting_period_text` from `bulkinvoicer/domain/periods.py`:
raises `ValueError` (modelled as `Except.error`) when both bounds are
present and `start_date > end_date`. -/
def get_reporting_period_text (start_date end_date : Option Date) :
    Except String (Option String) :=
  match start_date, end_date with
  | some sd, some ed =>
    if dateLt ed sd then Except.error "Start date cannot be after end date."
    else Except.ok (some ("Period: " ++ dateText sd ++ " - " ++ dateText ed))
  | some sd, none => Except.ok (some ("Period: Starting " ++ dateText sd))
  | none, some ed => Except.ok (some ("Period: Ending " ++ dateText ed))
  | none, none => Except.ok none

/-- Observable steps of the per-output part of `generate` relevant to the
reporting-window validation. -/
inductive GenStep where
  | slicedFrames
  | builtPeriodText
deriving DecidableEq, Repr

/-- The beginning of the per-output body of `generate` in
`bulkinvoicer/app/generate.py` (lines 95–107): it calls
`slice_period_frames` first and `get_reporting_period_text` (the
validation that raises on `start_date > end_date`) only afterwards; the
step trace records the order in which the two operations ran. -/
def generate_slice_and_validate (dfI : List InvoiceRow) (dfR : List ReceiptRow)
    (start_date end_date : Option Date) :
    List GenStep × Except String (PeriodFrames × Option String) :=
  let frames := slice_period_frames dfI dfR start_date end_date
  match get_reporting_period_text start_date end_date with
  | Except.error msg => ([GenStep.slicedFrames], Except.error msg)
  | Except.ok t => ([GenStep.slicedFrames, GenStep.builtPeriodText], Except.ok (frames, t))

/-- **Claim C9 counterexample.** With `start_date = 2024-05-01 >
end_date = 2024-01-01`, the run does raise the validation error — but
period slicing has already been performed by then (the step trace records
the slice), so the error is not raised before slicing proceeds as the
claim states. -/
theorem generate_invalid_window_counterexample :
    (generate_slice_and_validate [] [] (some ⟨2024, 5, 1⟩) (some ⟨2024, 1, 1⟩)).2 =
      Except.error "Start date cannot be after end date." ∧
    GenStep.slicedFrames ∈
      (generate_slice_and_validate [] [] (some ⟨2024, 5, 1⟩) (some ⟨2024, 1, 1⟩)).1 := by
  exact ⟨rfl, by decide⟩

/-- **Claim C9 (amended).** When both bounds are configured and
`start_date > end_date`, the run raises the validation error
(`ValueError` in the source) and nothing beyond the period slicing is
performed — the error fires immediately after `slice_period_frames`, so
no report text, summaries or documents are produced; but the slicing
itself has already run. -/
theorem generate_invalid_window_raises (dfI : List InvoiceRow) (dfR : List ReceiptRow)
    (sd ed : Date) (h : dateLt ed sd = true) :
    (generate_slice_and_validate dfI dfR (some sd) (some ed)).2 =
      Except.error "Start date cannot be after end date." ∧
    (generate_slice_and_validate dfI dfR (some sd) (some ed)).1 =
      [GenStep.slicedFrames] := by
  refine ⟨?_, ?_⟩ <;>
    simp [generate_slice_and_validate, get_reporting_period_text, h]

/-- Witness for the amended C9, at the counterexample's concrete window. -/
theorem generate_invalid_window_raises_witness :
    (generate_slice_and_validate [] [] (some ⟨2024, 5, 1⟩) (some ⟨2024, 1, 1⟩)).2 =
      Except.error "Start date cannot be after end date." ∧
    (generate_slice_and_validate [] [] (some ⟨2024, 5, 1⟩) (some ⟨2024, 1, 1⟩)).1 =
      [GenStep.slicedFrames] :=
  generate_invalid_window_raises [] [] ⟨2024, 5, 1⟩ ⟨2024, 1, 1⟩ (by decide)

/-! ## Status breakdown: `build_status_breakdown` in
`bulkinvoicer/domain/summaries.py`

Only the columns that function reads are modelled: `client` (counted) and
`closing_balance`.  Polars' unordered `group_by` followed by the
categorical sort yields the groups in category-appearance order; group
order is immaterial to the claims and is modelled by the distinct-status
enumeration below. -/

/-- One row of the `build_client_summaries` output, restricted to the
columns `build_status_breakdown` reads. -/
structure ClientSummary where
  client : String
  closing_balance : Money
deriving DecidableEq, Repr

/-- The status expression of `build_status_breakdown`:
`closing_balance > 0 → Outstanding`, `< 0 → Advance`, otherwise
`Settled`. -/
def statusOf (s : ClientSummary) : String :=
  if 0 < s.closing_balance then "Outstanding"
  else if s.closing_balance < 0 then "Advance"
  else "Settled"

/-- One row of the status breakdown: status, client count, summed
closing balance. -/
structure StatusRow where
  status : String
  clients : Nat
  amount : Money
deriving DecidableEq, Repr

/-- `build_status_breakdown` from `bulkinvoicer/domain/summaries.py`:
attach the status column, group by it, count clients and sum
`closing_balance` per group. -/
def build_status_breakdown (l : List ClientSummary) : List StatusRow :=
  ((l.map statusOf).dedup).map (fun st =>
    ⟨st, (l.filter (fun s => decide (statusOf s = st))).length,
     ((l.filter (fun s => decide (statusOf s = st))).map
       (fun s => s.closing_balance)).sum⟩)

theorem sum_map_add (f g : α → Nat) (l : List α) :
    (l.map (fun a => f a + g a)).sum = (l.map f).sum + (l.map g).sum := by
  induction l with
  | nil => rfl
  | cons x xs ih => simp [ih]; omega

theorem sum_indicator_one {β : Type} [DecidableEq β] (keys : List β) (b : β)
    (hnd : keys.Nodup) (hb : b ∈ keys) :
    (keys.map (fun k => if b = k then (1 : Nat) else 0)).sum = 1 := by
  induction keys with
  | nil => exact absurd hb (List.not_mem_nil b)
  | cons k ks ih =>
    rcases List.nodup_cons.mp hnd with ⟨hk, hks⟩
    rcases List.mem_cons.mp hb with hbk | hbks
    · subst hbk
      have hz : (ks.map (fun k' => if b = k' then (1 : Nat) else 0)).sum = 0 := by
        apply List.sum_eq_zero
        intro x hx
        rcases List.mem_map.mp hx with ⟨k', hk', hval⟩
        have hne : b ≠ k' := fun hbk' => hk (hbk' ▸ hk')
        rw [← hval, if_neg hne]
      simp [hz]
    · have hbne : b ≠ k := fun hbk => hk (hbk ▸ hbks)
      simp only [List.map_cons, List.sum_cons, if_neg hbne, Nat.zero_add]
      exact ih hks hbks

theorem count_partition {β : Type} [DecidableEq β] (l : List α) (keys : List β)
    (f : α → β) (hnd : keys.Nodup) (hcov : ∀ a ∈ l, f a ∈ keys) :
    (keys.map (fun b => (l.filter (fun a => decide (f a = b))).length)).sum = l.length := by
  induction l with
  | nil => simp
  | cons x xs ih =>
    have hx : f x ∈ keys := hcov x (List.mem_cons_self x xs)
    have hxs : ∀ a ∈ xs, f a ∈ keys := fun a ha => hcov a (List.mem_cons_of_mem x ha)
    have hpt : ∀ b, ((x :: xs).filter (fun a => decide (f a = b))).length =
        (if f x = b then 1 else 0) + (xs.filter (fun a => decide (f a = b))).length := by
      intro b
      by_cases h : f x = b <;> simp [List.filter_cons, h, Nat.add_comm]
    have hmap : keys.map (fun b => ((x :: xs).filter (fun a => decide (f a = b))).length) =
        keys.map (fun b => (if f x = b then 1 else 0) +
          (xs.filter (fun a => decide (f a = b))).length) :=
      List.map_congr_left (fun b _ => hpt b)
    rw [hmap, sum_map_add, sum_indicator_one keys (f x) hnd hx, ih hxs]
    simp [Nat.add_comm]

/-- **Claim C8.** Every client summary gets exactly one status,
determined solely by the sign of `closing_balance` (second conjunct: the
three sign cases are exhaustive and each forces its status string), and
in `build_status_breakdown` the per-status client counts sum to the
total number of client summaries — the buckets partition the clients
(first conjunct). -/
theorem build_status_breakdown_partition :
    (∀ l : List ClientSummary,
      ((build_status_breakdown l).map (fun r => r.clients)).sum = l.length) ∧
    (∀ s : ClientSummary,
      (0 < s.closing_balance ∧ statusOf s = "Outstanding") ∨
      (s.closing_balance < 0 ∧ statusOf s = "Advance") ∨
      (s.closing_balance = 0 ∧ statusOf s = "Settled")) := by
  constructor
  · intro l
    unfold build_status_breakdown
    rw [List.map_map]
    have : ((fun r : StatusRow => r.clients) ∘ (fun st =>
        (⟨st, (l.filter (fun s => decide (statusOf s = st))).length,
         ((l.filter (fun s => decide (statusOf s = st))).map
           (fun s => s.closing_balance)).sum⟩ : StatusRow))) =
        fun st => (l.filter (fun s => decide (statusOf s = st))).length := rfl
    rw [this]
    exact count_partition l ((l.map statusOf).dedup) statusOf
      (List.nodup_dedup _)
      (fun a ha => List.mem_dedup.mpr (List.mem_map_of_mem _ ha))
  · intro s
    rcases lt_trichotomy s.closing_balance 0 with h | h | h
    · exact Or.inr (Or.inl ⟨h, by simp [statusOf, h, not_lt.mpr (le_of_lt h)]⟩)
    · exact Or.inr (Or.inr ⟨h, by simp [statusOf, h]⟩)
    · exact Or.inl ⟨h, by simp [statusOf, h]⟩

/-! ## Per-client cumulative sums (`cum_sum().over("client")`)

Polars' windowed cumulative sum with the per-row previous value
(`shift(1)` over the same window) is modelled as a single scan threading
one running balance per client. -/

/-- Current running balance of a client (0 before its first row). -/
def lookupBal (s : List (String × Money)) (c : String) : Money :=
  match s.find? (fun p => decide (p.1 = c)) with
  | some p => p.2
  | none => 0

/-- Per-client cumulative scan over a row list in frame order: each row
is annotated with the client's previous running balance (`shift(1)` with
fill 0, the `open` column) and the new running balance (`cum_sum`, the
`balance` column). -/
def cumOver (g : α → String) (f : α → Money) :
    List (String × Money) → List α → List (α × Money × Money)
  | _, [] => []
  | s, x :: xs =>
    (x, lookupBal s (g x), lookupBal s (g x) + f x) ::
      cumOver g f ((g x, lookupBal s (g x) + f x) :: s) xs

/-- Single-client cumulative scan with starting accumulator. -/
def scanBal (f : α → Money) : Money → List α → List (α × Money × Money)
  | _, [] => []
  | acc, x :: xs => (x, acc, acc + f x) :: scanBal f (acc + f x) xs

theorem cumOver_fst (g : α → String) (f : α → Money) :
    ∀ (s : List (String × Money)) (l : List α), (cumOver g f s l).map Prod.fst = l := by
  intro s l
  induction l generalizing s with
  | nil => rfl
  | cons x xs ih => simp [cumOver, ih]

theorem scanBal_fst (f : α → Money) :
    ∀ (acc : Money) (l : List α), (scanBal f acc l).map Prod.fst = l := by
  intro acc l
  induction l generalizing acc with
  | nil => rfl
  | cons x xs ih => simp [scanBal, ih]

theorem lookupBal_cons_eq (s : List (String × Money)) (c : String) (v : Money) :
    lookupBal ((c, v) :: s) c = v := by
  simp [lookupBal, List.find?_cons]

theorem lookupBal_cons_ne (s : List (String × Money)) (c c' : String) (v : Money)
    (h : c' ≠ c) : lookupBal ((c', v) :: s) c = lookupBal s c := by
  simp only [lookupBal, List.find?_cons]
  rw [show (decide ((c', v).1 = c)) = false from decide_eq_false h]

/-- Restricting the per-client scan to one client's rows gives a plain
single-client scan started at that client's current balance. -/
theorem cumOver_filter_client (g : α → String) (f : α → Money) (c : String) :
    ∀ (s : List (String × Money)) (l : List α),
      (cumOver g f s l).filter (fun q => decide (g q.1 = c)) =
        scanBal f (lookupBal s c) (l.filter (fun x => decide (g x = c))) := by
  intro s l
  induction l generalizing s with
  | nil => rfl
  | cons x xs ih =>
    by_cases hc : g x = c
    · have hlk : lookupBal s (g x) = lookupBal s c := by rw [hc]
      have hlk' : lookupBal ((g x, lookupBal s (g x) + f x) :: s) c =
          lookupBal s c + f x := by
        rw [hc] at hlk ⊢
        rw [lookupBal_cons_eq]
      simp only [cumOver, List.filter_cons, decide_eq_true_eq, hc, if_pos,
        List.filter_cons, scanBal]
      congr 1
      rw [ih ((c, lookupBal s c + f x) :: s), lookupBal_cons_eq]
    · simp only [cumOver]
      rw [List.filter_cons, if_neg (by simp [hc]),
        List.filter_cons, if_neg (by simp [hc]), ih,
        lookupBal_cons_ne _ _ _ _ hc]

/-- Every annotated row of a single-client scan sits after a prefix whose
sum gives its two running values. -/
theorem scanBal_mem_split (f : α → Money) :
    ∀ (acc : Money) (l : List α) (q : α × Money × Money), q ∈ scanBal f acc l →
      ∃ pre post, l = pre ++ q.1 :: post ∧
        q.2.1 = acc + ((pre.map f)).sum ∧
        q.2.2 = acc + ((pre.map f)).sum + f q.1 := by
  intro acc l
  induction l generalizing acc with
  | nil => intro q hq; simp [scanBal] at hq
  | cons x xs ih =>
    intro q hq
    rcases List.mem_cons.mp hq with hq | hq
    · subst hq
      exact ⟨[], xs, rfl, by simp, by simp⟩
    · rcases ih (acc + f x) q hq with ⟨pre, post, hsplit, h1, h2⟩
      refine ⟨x :: pre, post, by rw [hsplit]; rfl, ?_, ?_⟩
      · rw [h1]; simp [add_assoc]
      · rw [h2]; simp [add_assoc]

/-! ## Client transaction ledger: `build_client_transactions_df` in
`bulkinvoicer/domain/transactions.py`

In `generate`, the builder runs only on the summary path, after
`normalize_date_period` has produced concrete bounds, so the window dates
are taken as plain dates here. -/

/-- A row of the concatenated transactions frame (its columns as
selected by the source: `sort_date`, `date`, `client`, `type`,
`reference`, `amount`). -/
structure TxnRow where
  client : String
  reference : String
  txType : String
  sort_date : Date
  date : Date
  amount : Money
deriving DecidableEq, Repr

/-- The invoice arm of the source's `pl.concat`: amount unchanged, type
`Invoice`, reference = invoice number. -/
def txnOfInvoice (i : InvoiceRow) : TxnRow :=
  ⟨i.client, i.number, "Invoice", i.sort_date, i.date, i.total⟩

/-- The receipt arm: amount negated, type `Receipt`. -/
def txnOfReceipt (r : ReceiptRow) : TxnRow :=
  ⟨r.client, r.number, "Receipt", r.sort_date, r.date, -r.amount⟩

/-- `build_client_transactions_df`: concatenate the close-slice invoices
and receipts, sort by `sort_date`, annotate the per-client cumulative
`balance`, and only then filter to `sort_date ∈ [start, end]`.  Each
output row is the transaction row paired with its `balance` column. -/
def build_client_transactions_df (start_date end_date : Date)
    (dfI : List InvoiceRow) (dfR : List ReceiptRow) : List (TxnRow × Money) :=
  ((cumOver (fun t => t.client) (fun t => t.amount) []
      (sortLe (fun a b => dateLe a.sort_date b.sort_date)
        (dfI.map txnOfInvoice ++ dfR.map txnOfReceipt))).map
    (fun q => (q.1, q.2.2))).filter
    (fun p => dateLe start_date p.1.sort_date && dateLe p.1.sort_date end_date)

/-- The client's signed transaction total over the whole close-slice
history up to (and including) a date. -/
def clientHistNet (txns : List TxnRow) (c : String) (d : Date) : Money :=
  ((txns.filter (fun t => decide (t.client = c) && dateLe t.sort_date d)).map
    (fun t => t.amount)).sum

theorem annot_proj_filter (l : List (α × Money × Money)) (p : α → Bool) :
    (((l.map (fun q => (q.1, q.2.2))).filter (fun q => p q.1)).map Prod.fst)
      = (l.map Prod.fst).filter p := by
  induction l with
  | nil => rfl
  | cons x xs ih =>
    by_cases hx : p x.1 = true <;>
      simp [List.filter_cons, hx, ih]

theorem pairwise_lt_of_le_nodup (l : List TxnRow)
    (hle : l.Pairwise (fun a b => dateLe a.sort_date b.sort_date = true))
    (hnd : (l.map (fun t => t.sort_date.key)).Nodup) :
    l.Pairwise (fun a b => dateLt a.sort_date b.sort_date = true) := by
  have hne : l.Pairwise (fun a b => a.sort_date.key ≠ b.sort_date.key) :=
    List.pairwise_map.mp hnd
  have hcomb := hle.and hne
  exact hcomb.imp (fun {a b} h => by
    rcases h with ⟨h1, h2⟩
    simp only [dateLe, decide_eq_true_eq] at h1
    simp only [dateLt, decide_eq_true_eq]
    omega)

/-- **Claim C7.** `build_client_transactions_df` returns exactly the
concatenation of the close-slice invoices (amount unchanged, type
`Invoice`) and receipts (amount negated, type `Receipt`), sorted by
`sort_date` and filtered to `[start, end]` (first conjunct); the output
is sorted by `sort_date` (second conjunct); and each output row's
balance is the per-client cumulative sum of the signed amounts over the
full close-slice history up to that row's date — computed before the
window filter, so pre-window transactions are reflected (third conjunct;
stated for rows whose client has pairwise-distinct transaction dates, so
that "cumulative up to this row" is "cumulative up to this date"). -/
theorem build_client_transactions_spec :
    (∀ (s e : Date) (dfI : List InvoiceRow) (dfR : List ReceiptRow),
      ((build_client_transactions_df s e dfI dfR).map Prod.fst) =
        (sortLe (fun a b => dateLe a.sort_date b.sort_date)
          (dfI.map txnOfInvoice ++ dfR.map txnOfReceipt)).filter
          (fun t => dateLe s t.sort_date && dateLe t.sort_date e)) ∧
    (∀ (s e : Date) (dfI : List InvoiceRow) (dfR : List ReceiptRow),
      ((build_client_transactions_df s e dfI dfR).map Prod.fst).Pairwise
        (fun a b => dateLe a.sort_date b.sort_date = true)) ∧
    (∀ (s e : Date) (dfI : List InvoiceRow) (dfR : List ReceiptRow) (p : TxnRow × Money),
      (((dfI.map txnOfInvoice ++ dfR.map txnOfReceipt).filter
          (fun t => decide (t.client = p.1.client))).map
        (fun t => t.sort_date.key)).Nodup →
      p ∈ build_client_transactions_df s e dfI dfR →
      p.2 = clientHistNet (dfI.map txnOfInvoice ++ dfR.map txnOfReceipt)
              p.1.client p.1.sort_date) := by
  have hproj : ∀ (s e : Date) (dfI : List InvoiceRow) (dfR : List ReceiptRow),
      ((build_client_transactions_df s e dfI dfR).map Prod.fst) =
        (sortLe (fun a b => dateLe a.sort_date b.sort_date)
          (dfI.map txnOfInvoice ++ dfR.map txnOfReceipt)).filter
          (fun t => dateLe s t.sort_date && dateLe t.sort_date e) := by
    intro s e dfI dfR
    unfold build_client_transactions_df
    have h1 := annot_proj_filter
      (cumOver (fun t : TxnRow => t.client) (fun t => t.amount) []
        (sortLe (fun a b => dateLe a.sort_date b.sort_date)
          (dfI.map txnOfInvoice ++ dfR.map txnOfReceipt)))
      (fun t : TxnRow => dateLe s t.sort_date && dateLe t.sort_date e)
    rw [cumOver_fst] at h1
    exact h1
  have hsorted : ∀ l : List TxnRow,
      (sortLe (fun a b => dateLe a.sort_date b.sort_date) l).Pairwise
        (fun a b => dateLe a.sort_date b.sort_date = true) :=
    sorted_sortLe _ (fun _ _ _ hab hbc => dateLe_trans hab hbc)
      (fun a b => dateLe_total a.sort_date b.sort_date)
  refine ⟨hproj, ?_, ?_⟩
  · intro s e dfI dfR
    rw [hproj]
    exact (hsorted _).filter _
  · intro s e dfI dfR p hnd hp
    unfold build_client_transactions_df at hp
    rcases List.mem_filter.mp hp with ⟨hpmem, _⟩
    rcases List.mem_map.mp hpmem with ⟨q, hq, hpq⟩
    have hpc : p.1 = q.1 := by rw [← hpq]
    have hpb : p.2 = q.2.2 := by rw [← hpq]
    set c := p.1.client with hc
    set txns := dfI.map txnOfInvoice ++ dfR.map txnOfReceipt with htxns
    set sorted := sortLe (fun a b => dateLe a.sort_date b.sort_date) txns with hsorteq
    have hqf : q ∈ (cumOver (fun t => t.client) (fun t => t.amount) [] sorted).filter
        (fun q' => decide (q'.1.client = c)) := by
      refine List.mem_filter.mpr ⟨hq, ?_⟩
      rw [hc, hpc]
      simp
    rw [cumOver_filter_client] at hqf
    have hzero : lookupBal [] c = 0 := rfl
    rw [hzero] at hqf
    set m := sorted.filter (fun x => decide (x.client = c)) with hm
    rcases scanBal_mem_split _ _ _ _ hqf with ⟨pre, post, hsplit, _, h2⟩
    -- per-client rows of the sorted frame are strictly date-sorted
    have hmperm : m.Perm (txns.filter (fun x => decide (x.client = c))) :=
      (perm_sortLe _ txns).filter _
    have hmnd : (m.map (fun t => t.sort_date.key)).Nodup :=
      ((hmperm.map (fun t => t.sort_date.key)).nodup_iff).mpr hnd
    have hmlt : m.Pairwise (fun a b => dateLt a.sort_date b.sort_date = true) :=
      pairwise_lt_of_le_nodup m ((hsorted txns).filter _) hmnd
    -- the prefix is exactly the rows dated up to q's date
    have hfil : m.filter (fun t => dateLe t.sort_date q.1.sort_date) = pre ++ [q.1] := by
      rw [hsplit] at hmlt ⊢
      rcases List.pairwise_append.mp hmlt with ⟨hpre, hrest, hcross⟩
      rw [List.filter_append]
      have h1 : pre.filter (fun t => dateLe t.sort_date q.1.sort_date) = pre := by
        apply List.filter_eq_self.mpr
        intro x hx
        have := hcross x hx q.1 (List.mem_cons_self _ _)
        simp only [dateLt, decide_eq_true_eq] at this
        simp only [dateLe, decide_eq_true_eq]
        omega
      have h2' : (q.1 :: post).filter (fun t => dateLe t.sort_date q.1.sort_date)
          = [q.1] := by
        rw [List.filter_cons, if_pos (by simp [dateLe])]
        have : post.filter (fun t => dateLe t.sort_date q.1.sort_date) = [] := by
          apply List.filter_eq_nil_iff.mpr
          intro x hx
          have hq1x := (List.pairwise_cons.mp hrest).1 x hx
          simp only [dateLt, decide_eq_true_eq] at hq1x
          simp only [dateLe, decide_eq_true_eq, Bool.not_eq_true]
          omega
        rw [this]
      rw [h1, h2']
    -- sums transfer along the permutation to the unsorted history
    have hsum : ((m.filter (fun t => dateLe t.sort_date q.1.sort_date)).map
        (fun t => t.amount)).sum =
        clientHistNet txns c q.1.sort_date := by
      unfold clientHistNet
      have hp2 : (m.filter (fun t => dateLe t.sort_date q.1.sort_date)).Perm
          ((txns.filter (fun x => decide (x.client = c))).filter
            (fun t => dateLe t.sort_date q.1.sort_date)) :=
        hmperm.filter _
      rw [(hp2.map (fun t => t.amount)).sum_eq, filter_filter_and]
    rw [hfil] at hsum
    rw [hpc, ← hsum, hpb, h2]
    simp [List.map_append, List.sum_append]

/-- Witness for C7: a January invoice of 100 lies before the February
window, yet the February receipt row's balance 60 reflects it. -/
theorem build_client_transactions_spec_witness :
    ((txnOfReceipt ⟨"C1", "REC-1", ⟨2024, 2, 1⟩, ⟨2024, 2, 1⟩, 40⟩, (60 : Money)) :
        TxnRow × Money).2 =
      clientHistNet
        (([⟨"C1", "INV-1", ⟨2024, 1, 5⟩, ⟨2024, 1, 5⟩, 100⟩] :
            List InvoiceRow).map txnOfInvoice ++
          ([⟨"C1", "REC-1", ⟨2024, 2, 1⟩, ⟨2024, 2, 1⟩, 40⟩] :
            List ReceiptRow).map txnOfReceipt)
        (txnOfReceipt ⟨"C1", "REC-1", ⟨2024, 2, 1⟩, ⟨2024, 2, 1⟩, 40⟩).client
        (txnOfReceipt ⟨"C1", "REC-1", ⟨2024, 2, 1⟩, ⟨2024, 2, 1⟩, 40⟩).sort_date :=
  build_client_transactions_spec.2.2 ⟨2024, 2, 1⟩ ⟨2024, 2, 28⟩
    [⟨"C1", "INV-1", ⟨2024, 1, 5⟩, ⟨2024, 1, 5⟩, 100⟩]
    [⟨"C1", "REC-1", ⟨2024, 2, 1⟩, ⟨2024, 2, 1⟩, 40⟩]
    (txnOfReceipt ⟨"C1", "REC-1", ⟨2024, 2, 1⟩, ⟨2024, 2, 1⟩, 40⟩, (60 : Money))
    (by decide) (by decide)

/-! ## Monthly balance engine: `compute_monthly_client_balances` in
`bulkinvoicer/domain/balances.py`

The polars pipeline is modelled as follows.  Months are indexed by
`year * 12 + (month - 1)`; a `group_by_dynamic(every="1mo")` bucket is a
month-start date.  The row keys of the joined frame are the union of the
cross product (window months × `clients_close`) with the invoice and
receipt activity keys, each key carrying the bucket sums
(`fill_null(0)` makes empty buckets 0).  `sort("sort_date")` is the
month-ascending enumeration below (polars leaves the relative order of
different clients inside one month unspecified; the claims are
per-client).  `cum_sum().over("client")` and the shifted `open` column
are the per-client scan `cumOver`; the final `is_between` filter keeps
bucket dates inside `[start_date, end_date]`.  The display-name column
is carried through the source joins but read by nothing modelled here. -/

/-- Month bucket index of a date. -/
def monthIdx (d : Date) : Nat := d.year * 12 + (d.month - 1)

/-- First day of a month bucket (the bucket's `sort_date`). -/
def monthStart (m : Nat) : Date := ⟨m / 12, m % 12 + 1, 1⟩

/-- Invoice total of one (client, month) bucket (0 if the bucket is
empty, as `fill_null(0)` produces). -/
def invoicedIn (dfI : List InvoiceRow) (c : String) (m : Nat) : Money :=
  ((dfI.filter (fun i => decide (i.client = c) && decide (monthIdx i.sort_date = m))).map
    (fun i => i.total)).sum

/-- Receipt total of one (client, month) bucket. -/
def receivedIn (dfR : List ReceiptRow) (c : String) (m : Nat) : Money :=
  ((dfR.filter (fun r => decide (r.client = c) && decide (monthIdx r.sort_date = m))).map
    (fun r => r.amount)).sum

/-- The month buckets of `pl.date_range(start, end)` grouped monthly. -/
def windowMonths (s e : Date) : List Nat :=
  List.range' (monthIdx s) (monthIdx e + 1 - monthIdx s)

/-- All month indices occurring anywhere: the window plus both frames'
activity months. -/
def candMonths (s e : Date) (dfI : List InvoiceRow) (dfR : List ReceiptRow) : List Nat :=
  windowMonths s e ++ dfI.map (fun i => monthIdx i.sort_date) ++
    dfR.map (fun r => monthIdx r.sort_date)

/-- The contiguous ascending range of months covering a candidate set. -/
def monthSpan : List Nat → List Nat
  | [] => []
  | x :: xs =>
    List.range' (xs.foldr Nat.min x) (xs.foldr Nat.max x + 1 - xs.foldr Nat.min x)

/-- All clients occurring anywhere (the joins union `clients_close` with
both frames' clients). -/
def allClients (cl : List String) (dfI : List InvoiceRow) (dfR : List ReceiptRow) :
    List String :=
  (cl ++ dfI.map (fun i => i.client) ++ dfR.map (fun r => r.client)).dedup

/-- Does the client have invoice activity in the month? -/
def hasInvoiceIn (dfI : List InvoiceRow) (c : String) (m : Nat) : Bool :=
  dfI.any (fun i => decide (i.client = c) && decide (monthIdx i.sort_date = m))

/-- Does the client have receipt activity in the month? -/
def hasReceiptIn (dfR : List ReceiptRow) (c : String) (m : Nat) : Bool :=
  dfR.any (fun r => decide (r.client = c) && decide (monthIdx r.sort_date = m))

/-- Is the (client, month) key a row of the joined frame?  Keys come from
the cross product (window months × close clients) and from either
activity aggregate, via the two full joins. -/
def keyPresent (s e : Date) (cl : List String) (dfI : List InvoiceRow)
    (dfR : List ReceiptRow) (c : String) (m : Nat) : Bool :=
  (decide (c ∈ cl) && decide (m ∈ windowMonths s e)) ||
    hasInvoiceIn dfI c m || hasReceiptIn dfR c m

/-- The joined frame's keys in sorted order: months ascending, the
present clients within each month. -/
def balanceKeys (s e : Date) (dfI : List InvoiceRow) (dfR : List ReceiptRow)
    (cl : List String) : List (String × Nat) :=
  ((monthSpan (candMonths s e dfI dfR)).map (fun m =>
    ((allClients cl dfI dfR).filter (fun c => keyPresent s e cl dfI dfR c m)).map
      (fun c => (c, m)))).flatten

/-- One output row of `compute_monthly_client_balances` (`opening` is
the source's `open` column — `open` is a Lean keyword). -/
structure BalanceRow where
  client : String
  sort_date : Date
  opening : Money
  invoiced : Money
  received : Money
  balance : Money
deriving DecidableEq, Repr

/-- The row built from one scanned key. -/
def toBalanceRow (dfI : List InvoiceRow) (dfR : List ReceiptRow)
    (q : (String × Nat) × Money × Money) : BalanceRow :=
  ⟨q.1.1, monthStart q.1.2, q.2.1, invoicedIn dfI q.1.1 q.1.2,
   receivedIn dfR q.1.1 q.1.2, q.2.2⟩

/-- `compute_monthly_client_balances` from
`bulkinvoicer/domain/balances.py`: bucket sums per (client, month) key,
per-client cumulative `balance` with the one-row-shifted `open`, computed
over the whole history and only then filtered to the reporting window. -/
def compute_monthly_client_balances (start_date end_date : Date)
    (dfI : List InvoiceRow) (dfR : List ReceiptRow) (cl : List String) :
    List BalanceRow :=
  ((cumOver (fun k : String × Nat => k.1)
      (fun k => invoicedIn dfI k.1 k.2 - receivedIn dfR k.1 k.2) []
      (balanceKeys start_date end_date dfI dfR cl)).map
    (toBalanceRow dfI dfR)).filter
    (fun r => dateLe start_date r.sort_date && dateLe r.sort_date end_date)

/-- Client's invoiced total from inception through month `m`. -/
def invoicedUpTo (dfI : List InvoiceRow) (c : String) (m : Nat) : Money :=
  ((dfI.filter (fun i => decide (i.client = c) && decide (monthIdx i.sort_date ≤ m))).map
    (fun i => i.total)).sum

/-- Client's received total from inception through month `m`. -/
def receivedUpTo (dfR : List ReceiptRow) (c : String) (m : Nat) : Money :=
  ((dfR.filter (fun r => decide (r.client = c) && decide (monthIdx r.sort_date ≤ m))).map
    (fun r => r.amount)).sum

/-- Cumulative (invoiced − received) over the client's whole history up
to and including a month. -/
def cumNet (dfI : List InvoiceRow) (dfR : List ReceiptRow) (c : String) (m : Nat) :
    Money :=
  invoicedUpTo dfI c m - receivedUpTo dfR c m

theorem filter_of_map (g : α → β) (p : β → Bool) (l : List α) :
    (l.map g).filter p = (l.filter (fun x => p (g x))).map g := by
  induction l with
  | nil => rfl
  | cons x xs ih =>
    by_cases hx : p (g x) = true <;>
      simp [List.filter_cons, hx, ih]

theorem scanBal_map (g : β → α) (f : α → Money) :
    ∀ (acc : Money) (l : List β),
      scanBal f acc (l.map g) =
        (scanBal (fun b => f (g b)) acc l).map (fun q => (g q.1, q.2)) := by
  intro acc l
  induction l generalizing acc with
  | nil => rfl
  | cons x xs ih => simp [scanBal, ih]

theorem scanBal_mem_fst (f : α → Money) (acc : Money) (l : List α)
    (q : α × Money × Money) (hq : q ∈ scanBal f acc l) : q.1 ∈ l := by
  have := List.mem_map_of_mem Prod.fst hq
  rwa [scanBal_fst] at this

theorem sum_map_sub_int (f g : α → Money) (l : List α) :
    (l.map (fun a => f a - g a)).sum = (l.map f).sum - (l.map g).sum := by
  induction l with
  | nil => simp
  | cons x xs ih => simp [ih]; ring

theorem sum_map_add_int (f g : α → Money) (l : List α) :
    (l.map (fun a => f a + g a)).sum = (l.map f).sum + (l.map g).sum := by
  induction l with
  | nil => simp
  | cons x xs ih => simp [ih]; ring

theorem sum_indicator_val (M : List Nat) (hnd : M.Nodup) (k : Nat) (v : Money) :
    (M.map (fun m' => if k = m' then v else 0)).sum = if k ∈ M then v else 0 := by
  induction M with
  | nil => simp
  | cons m ms ih =>
    rcases List.nodup_cons.mp hnd with ⟨hm, hms⟩
    by_cases hk : k = m
    · subst hk
      have hz : (ms.map (fun m' => if k = m' then v else 0)).sum = 0 := by
        apply List.sum_eq_zero
        intro x hx
        rcases List.mem_map.mp hx with ⟨m', hm', hval⟩
        rw [← hval, if_neg (fun hkm' => hm (by rw [hkm']; exact hm'))]
      simp [hz]
    · have hmem : (k ∈ m :: ms) = (k ∈ ms) := by
        simp [List.mem_cons, hk]
      simp only [List.map_cons, List.sum_cons, if_neg hk, zero_add, ih hms, hmem]

/-- Double counting: summing the per-month bucket totals over a
duplicate-free month list equals summing the values of the rows whose
month lies in the list. -/
theorem sum_buckets (rows : List ρ) (val : ρ → Money) (key : ρ → Nat) :
    ∀ (M : List Nat), M.Nodup →
      (M.map (fun m' => ((rows.filter (fun r => decide (key r = m'))).map val).sum)).sum
        = ((rows.filter (fun r => decide (key r ∈ M))).map val).sum := by
  induction rows with
  | nil =>
    intro M _
    apply List.sum_eq_zero
    intro x hx
    rcases List.mem_map.mp hx with ⟨m', _, hval⟩
    simp at hval
    exact hval.symm
  | cons r rs ih =>
    intro M hnd
    have hstep : ∀ m' : Nat,
        (((r :: rs).filter (fun x => decide (key x = m'))).map val).sum =
          (if key r = m' then val r else 0) +
            ((rs.filter (fun x => decide (key x = m'))).map val).sum := by
      intro m'
      by_cases hk : key r = m' <;> simp [List.filter_cons, hk]
    have hmapc : M.map (fun m' => (((r :: rs).filter
        (fun x => decide (key x = m'))).map val).sum) =
        M.map (fun m' => (if key r = m' then val r else 0) +
          ((rs.filter (fun x => decide (key x = m'))).map val).sum) :=
      List.map_congr_left (fun m' _ => hstep m')
    rw [hmapc, sum_map_add_int, sum_indicator_val M hnd (key r) (val r), ih M hnd]
    by_cases hr : key r ∈ M <;>
      simp [List.filter_cons, hr]

theorem nodup_filter_singleton (l : List String) (hnd : l.Nodup) (c : String) :
    l.filter (fun x => decide (x = c)) = if c ∈ l then [c] else [] := by
  induction l with
  | nil => simp
  | cons x xs ih =>
    rcases List.nodup_cons.mp hnd with ⟨hx, hxs⟩
    by_cases hxc : x = c
    · subst hxc
      have hft : xs.filter (fun y => decide (y = x)) = [] := by
        apply List.filter_eq_nil_iff.mpr
        intro y hy
        simp only [decide_eq_true_eq]
        exact fun hyx => hx (hyx ▸ hy)
      simp [List.filter_cons, hft]
    · rw [List.filter_cons, if_neg (by simp [hxc]), ih hxs]
      by_cases hcm : c ∈ xs
      · rw [if_pos hcm, if_pos (List.mem_cons_of_mem x hcm)]
      · rw [if_neg hcm, if_neg (fun hmem => by
          rcases List.mem_cons.mp hmem with h | h
          · exact hxc h.symm
          · exact hcm h)]

theorem foldr_min_le (x : Nat) (xs : List Nat) :
    ∀ m ∈ x :: xs, xs.foldr Nat.min x ≤ m := by
  induction xs with
  | nil =>
    intro m hm
    rcases List.mem_cons.mp hm with h | h
    · rw [h]; exact Nat.le_refl x
    · simp at h
  | cons y ys ih =>
    intro m hm
    have hf : (y :: ys).foldr Nat.min x = Nat.min y (ys.foldr Nat.min x) := rfl
    rw [hf]
    rcases List.mem_cons.mp hm with h | h
    · rw [h]
      exact le_trans (Nat.min_le_right y _) (ih x (List.mem_cons_self x ys))
    · rcases List.mem_cons.mp h with h' | h'
      · rw [h']
        exact Nat.min_le_left y _
      · exact le_trans (Nat.min_le_right y _) (ih m (List.mem_cons_of_mem x h'))

theorem le_foldr_max (x : Nat) (xs : List Nat) :
    ∀ m ∈ x :: xs, m ≤ xs.foldr Nat.max x := by
  induction xs with
  | nil =>
    intro m hm
    rcases List.mem_cons.mp hm with h | h
    · rw [h]; exact Nat.le_refl x
    · simp at h
  | cons y ys ih =>
    intro m hm
    have hf : (y :: ys).foldr Nat.max x = Nat.max y (ys.foldr Nat.max x) := rfl
    rw [hf]
    rcases List.mem_cons.mp hm with h | h
    · rw [h]
      exact le_trans (ih x (List.mem_cons_self x ys)) (Nat.le_max_right y _)
    · rcases List.mem_cons.mp h with h' | h'
      · rw [h']
        exact Nat.le_max_left y _
      · exact le_trans (ih m (List.mem_cons_of_mem x h')) (Nat.le_max_right y _)

theorem mem_monthSpan (cand : List Nat) (m : Nat) (hm : m ∈ cand) :
    m ∈ monthSpan cand := by
  cases cand with
  | nil => simp at hm
  | cons x xs =>
    have hlo : xs.foldr Nat.min x ≤ m := foldr_min_le x xs m hm
    have hhi : m ≤ xs.foldr Nat.max x := le_foldr_max x xs m hm
    unfold monthSpan
    rw [List.mem_range'_1]
    omega

theorem pairwise_lt_range' : ∀ (n s : Nat), (List.range' s n).Pairwise (· < ·) := by
  intro n
  induction n with
  | zero => intro s; simp
  | succ k ih =>
    intro s
    rw [List.range'_succ]
    refine List.pairwise_cons.mpr ⟨?_, ih (s + 1)⟩
    intro y hy
    have := (List.mem_range'_1.mp hy).1
    omega

theorem pairwise_lt_monthSpan (cand : List Nat) :
    (monthSpan cand).Pairwise (· < ·) := by
  cases cand with
  | nil => simp [monthSpan]
  | cons x xs => exact pairwise_lt_range' _ _

theorem keyPresent_mem_allClients (s e : Date) (cl : List String)
    (dfI : List InvoiceRow) (dfR : List ReceiptRow) (c : String) (m : Nat)
    (h : keyPresent s e cl dfI dfR c m = true) : c ∈ allClients cl dfI dfR := by
  unfold keyPresent at h
  unfold allClients
  rw [List.mem_dedup]
  simp only [Bool.or_eq_true, Bool.and_eq_true, decide_eq_true_eq] at h
  rcases h with (⟨⟨hcl, _⟩ | hinv⟩ | hrec)
  · exact List.mem_append.mpr (Or.inl (List.mem_append.mpr (Or.inl hcl)))
  · rcases List.any_eq_true.mp hinv with ⟨i, hi, hcond⟩
    simp only [Bool.and_eq_true, decide_eq_true_eq] at hcond
    have : i.client = c := hcond.1
    exact List.mem_append.mpr (Or.inl (List.mem_append.mpr (Or.inr
      (this ▸ List.mem_map_of_mem _ hi))))
  · rcases List.any_eq_true.mp hrec with ⟨r, hr, hcond⟩
    simp only [Bool.and_eq_true, decide_eq_true_eq] at hcond
    have : r.client = c := hcond.1
    exact List.mem_append.mpr (Or.inr (this ▸ List.mem_map_of_mem _ hr))

theorem balanceKeys_filter_client (s e : Date) (dfI : List InvoiceRow)
    (dfR : List ReceiptRow) (cl : List String) (c : String) :
    (balanceKeys s e dfI dfR cl).filter (fun k => decide (k.1 = c)) =
      ((monthSpan (candMonths s e dfI dfR)).filter
        (fun m => keyPresent s e cl dfI dfR c m)).map (fun m => (c, m)) := by
  unfold balanceKeys
  generalize monthSpan (candMonths s e dfI dfR) = M
  induction M with
  | nil => rfl
  | cons m ms ih =>
    have hhead : (((allClients cl dfI dfR).filter
        (fun c' => keyPresent s e cl dfI dfR c' m)).map (fun c' => (c', m))).filter
          (fun k => decide (k.1 = c)) =
        if keyPresent s e cl dfI dfR c m then [(c, m)] else [] := by
      rw [filter_of_map]
      have hl : (fun x : String => decide (((x, m) : String × Nat).1 = c)) =
          fun x : String => decide (x = c) := rfl
      have hndf : ((allClients cl dfI dfR).filter
          (fun c' => keyPresent s e cl dfI dfR c' m)).Nodup := by
        have hnda : (allClients cl dfI dfR).Nodup := by
          unfold allClients
          exact List.nodup_dedup _
        exact hnda.filter _
      rw [hl, nodup_filter_singleton ((allClients cl dfI dfR).filter
        (fun c' => keyPresent s e cl dfI dfR c' m)) hndf c]
      by_cases hp : keyPresent s e cl dfI dfR c m = true
      · rw [if_pos (List.mem_filter.mpr
          ⟨keyPresent_mem_allClients s e cl dfI dfR c m hp, hp⟩), if_pos hp]
        rfl
      · by_cases hcmem : c ∈ (allClients cl dfI dfR).filter
            (fun c' => keyPresent s e cl dfI dfR c' m)
        · exact absurd (List.mem_filter.mp hcmem).2 hp
        · rw [if_neg hcmem, if_neg (fun hp' => hp hp')]
          rfl
    rw [List.map_cons, List.flatten_cons, List.filter_append, ih, hhead,
      List.filter_cons]
    by_cases hp : keyPresent s e cl dfI dfR c m = true
    · rw [if_pos hp, if_pos hp, List.map_cons, List.singleton_append]
    · rw [if_neg (fun hp' => hp hp'), if_neg (fun hp' => hp hp'), List.nil_append]

theorem monthIdx_monthStart (m : Nat) : monthIdx (monthStart m) = m := by
  unfold monthIdx monthStart
  simp only
  omega

theorem monthStart_key_mono {a b : Nat} (h : a ≤ b) :
    (monthStart a).key ≤ (monthStart b).key := by
  unfold monthStart Date.key
  simp only
  omega

/-- The per-client chain invariant survives a window filter over a
convex month predicate: each kept row's `open` equals the previous kept
row's `balance`, because any month strictly between two kept months
would itself be kept. -/
theorem scanBal_filter_chain (f : Nat → Money) (W : Nat → Bool)
    (hconv : ∀ a b c', a ≤ b → b ≤ c' → W a = true → W c' = true → W b = true) :
    ∀ (acc : Money) (l : List Nat), l.Pairwise (· < ·) →
      List.Chain' (fun p q => q.2.1 = p.2.2)
        ((scanBal f acc l).filter (fun q => W q.1)) := by
  intro acc l
  induction l generalizing acc with
  | nil => intro _; simp [scanBal]
  | cons m ms ih =>
    intro hpw
    rcases List.pairwise_cons.mp hpw with ⟨hm, hms⟩
    rw [show scanBal f acc (m :: ms) =
      (m, acc, acc + f m) :: scanBal f (acc + f m) ms from rfl]
    rw [List.filter_cons]
    by_cases hWm : W m = true
    · rw [if_pos hWm]
      cases hms' : ms with
      | nil =>
        simp [scanBal]
      | cons m1 ms' =>
        subst hms'
        by_cases hW1 : W m1 = true
        · have htail : (scanBal f (acc + f m) (m1 :: ms')).filter (fun q => W q.1) =
              (m1, acc + f m, acc + f m + f m1) ::
                (scanBal f (acc + f m + f m1) ms').filter (fun q => W q.1) := by
            rw [show scanBal f (acc + f m) (m1 :: ms') =
              (m1, acc + f m, acc + f m + f m1) ::
                scanBal f (acc + f m + f m1) ms' from rfl]
            rw [List.filter_cons, if_pos hW1]
          rw [htail]
          refine List.Chain'.cons rfl ?_
          have hch := ih (acc + f m) hms
          rwa [htail] at hch
        · have hempty : (scanBal f (acc + f m) (m1 :: ms')).filter
              (fun q => W q.1) = [] := by
            apply List.filter_eq_nil_iff.mpr
            intro q hq
            have hq1 : q.1 ∈ m1 :: ms' := scanBal_mem_fst _ _ _ q hq
            simp only [Bool.not_eq_true]
            by_contra hWq'
            rw [Bool.not_eq_false] at hWq'
            rcases List.mem_cons.mp hq1 with h | h
            · rw [h] at hWq'
              exact hW1 hWq'
            · have h1 : m1 < q.1 := (List.pairwise_cons.mp hms).1 q.1 h
              have h0 : m < m1 := hm m1 (List.mem_cons_self _ _)
              exact hW1 (hconv m m1 q.1 (Nat.le_of_lt h0) (Nat.le_of_lt h1) hWm hWq')
          rw [hempty]
          exact List.chain'_singleton _
    · rw [if_neg (fun h => hWm h)]
      exact ih (acc + f m) hms

/-- The per-client view of the balance output: the window-filtered
single-client scan over the client's present months, rendered to rows. -/
theorem compute_filter_client_eq (s e : Date) (dfI : List InvoiceRow)
    (dfR : List ReceiptRow) (cl : List String) (c : String) :
    (compute_monthly_client_balances s e dfI dfR cl).filter
        (fun r => decide (r.client = c)) =
      ((scanBal (fun m => invoicedIn dfI c m - receivedIn dfR c m) 0
          ((monthSpan (candMonths s e dfI dfR)).filter
            (fun m => keyPresent s e cl dfI dfR c m))).filter
        (fun q => dateLe s (monthStart q.1) && dateLe (monthStart q.1) e)).map
      (fun q => toBalanceRow dfI dfR ((c, q.1), q.2)) := by
  unfold compute_monthly_client_balances
  have e1 := filter_filter_and
    (fun r : BalanceRow => dateLe s r.sort_date && dateLe r.sort_date e)
    (fun r : BalanceRow => decide (r.client = c))
    ((cumOver (fun k : String × Nat => k.1)
        (fun k => invoicedIn dfI k.1 k.2 - receivedIn dfR k.1 k.2) []
        (balanceKeys s e dfI dfR cl)).map (toBalanceRow dfI dfR))
  have e2 := filter_of_map (toBalanceRow dfI dfR)
    (fun r : BalanceRow =>
      (dateLe s r.sort_date && dateLe r.sort_date e) && decide (r.client = c))
    (cumOver (fun k : String × Nat => k.1)
      (fun k => invoicedIn dfI k.1 k.2 - receivedIn dfR k.1 k.2) []
      (balanceKeys s e dfI dfR cl))
  have e3 : (cumOver (fun k : String × Nat => k.1)
      (fun k => invoicedIn dfI k.1 k.2 - receivedIn dfR k.1 k.2) []
      (balanceKeys s e dfI dfR cl)).filter
        (fun q => (dateLe s (toBalanceRow dfI dfR q).sort_date &&
          dateLe (toBalanceRow dfI dfR q).sort_date e) &&
          decide ((toBalanceRow dfI dfR q).client = c)) =
      (cumOver (fun k : String × Nat => k.1)
        (fun k => invoicedIn dfI k.1 k.2 - receivedIn dfR k.1 k.2) []
        (balanceKeys s e dfI dfR cl)).filter
          (fun q => decide ((toBalanceRow dfI dfR q).client = c) &&
            (dateLe s (toBalanceRow dfI dfR q).sort_date &&
              dateLe (toBalanceRow dfI dfR q).sort_date e)) :=
    List.filter_congr (fun q _ => Bool.and_comm _ _)
  have e4 := (filter_filter_and
    (fun q : (String × Nat) × Money × Money =>
      decide ((toBalanceRow dfI dfR q).client = c))
    (fun q : (String × Nat) × Money × Money =>
      dateLe s (toBalanceRow dfI dfR q).sort_date &&
        dateLe (toBalanceRow dfI dfR q).sort_date e)
    (cumOver (fun k : String × Nat => k.1)
      (fun k => invoicedIn dfI k.1 k.2 - receivedIn dfR k.1 k.2) []
      (balanceKeys s e dfI dfR cl))).symm
  have e5 : (cumOver (fun k : String × Nat => k.1)
      (fun k => invoicedIn dfI k.1 k.2 - receivedIn dfR k.1 k.2) []
      (balanceKeys s e dfI dfR cl)).filter
        (fun q => decide ((toBalanceRow dfI dfR q).client = c)) =
      scanBal (fun k : String × Nat => invoicedIn dfI k.1 k.2 - receivedIn dfR k.1 k.2) 0
        ((balanceKeys s e dfI dfR cl).filter (fun k => decide (k.1 = c))) :=
    cumOver_filter_client (fun k : String × Nat => k.1)
      (fun k => invoicedIn dfI k.1 k.2 - receivedIn dfR k.1 k.2) c []
      (balanceKeys s e dfI dfR cl)
  have e6 : scanBal (fun k : String × Nat =>
        invoicedIn dfI k.1 k.2 - receivedIn dfR k.1 k.2) 0
        ((balanceKeys s e dfI dfR cl).filter (fun k => decide (k.1 = c))) =
      scanBal (fun k : String × Nat =>
        invoicedIn dfI k.1 k.2 - receivedIn dfR k.1 k.2) 0
        (((monthSpan (candMonths s e dfI dfR)).filter
          (fun m => keyPresent s e cl dfI dfR c m)).map (fun m => (c, m))) := by
    rw [balanceKeys_filter_client]
  have e7 := scanBal_map (fun m : Nat => ((c, m) : String × Nat))
    (fun k : String × Nat => invoicedIn dfI k.1 k.2 - receivedIn dfR k.1 k.2) 0
    ((monthSpan (candMonths s e dfI dfR)).filter
      (fun m => keyPresent s e cl dfI dfR c m))
  have c1 : (cumOver (fun k : String × Nat => k.1)
      (fun k => invoicedIn dfI k.1 k.2 - receivedIn dfR k.1 k.2) []
      (balanceKeys s e dfI dfR cl)).filter
        (fun q => decide ((toBalanceRow dfI dfR q).client = c)) =
      (scanBal (fun m => invoicedIn dfI c m - receivedIn dfR c m) 0
        ((monthSpan (candMonths s e dfI dfR)).filter
          (fun m => keyPresent s e cl dfI dfR c m))).map
        (fun q => (((c, q.1) : String × Nat), q.2)) :=
    e5.trans (e6.trans e7)
  have c2 : ((cumOver (fun k : String × Nat => k.1)
      (fun k => invoicedIn dfI k.1 k.2 - receivedIn dfR k.1 k.2) []
      (balanceKeys s e dfI dfR cl)).filter
        (fun q => decide ((toBalanceRow dfI dfR q).client = c))).filter
        (fun q => dateLe s (toBalanceRow dfI dfR q).sort_date &&
          dateLe (toBalanceRow dfI dfR q).sort_date e) =
      (((scanBal (fun m => invoicedIn dfI c m - receivedIn dfR c m) 0
        ((monthSpan (candMonths s e dfI dfR)).filter
          (fun m => keyPresent s e cl dfI dfR c m))).map
        (fun q => (((c, q.1) : String × Nat), q.2))).filter
        (fun q => dateLe s (toBalanceRow dfI dfR q).sort_date &&
          dateLe (toBalanceRow dfI dfR q).sort_date e)) := by
    rw [c1]
  have e8 := filter_of_map
    (fun q : Nat × Money × Money => (((c, q.1) : String × Nat), q.2))
    (fun q : (String × Nat) × Money × Money =>
      dateLe s (toBalanceRow dfI dfR q).sort_date &&
        dateLe (toBalanceRow dfI dfR q).sort_date e)
    (scanBal (fun m => invoicedIn dfI c m - receivedIn dfR c m) 0
      ((monthSpan (candMonths s e dfI dfR)).filter
        (fun m => keyPresent s e cl dfI dfR c m)))
  have inner := e3.trans (e4.trans (c2.trans e8))
  have outer := congrArg (List.map (toBalanceRow dfI dfR)) inner
  refine e1.trans (e2.trans (outer.trans ?_))
  rw [List.map_map]
  rfl

/-- Convexity of the reporting-window predicate on month buckets. -/
theorem windowPred_convex (s e : Date) :
    ∀ a b c', a ≤ b → b ≤ c' →
      (dateLe s (monthStart a) && dateLe (monthStart a) e) = true →
      (dateLe s (monthStart c') && dateLe (monthStart c') e) = true →
      (dateLe s (monthStart b) && dateLe (monthStart b) e) = true := by
  intro a b c' hab hbc hWa hWc
  have h1 := monthStart_key_mono hab
  have h2 := monthStart_key_mono hbc
  simp only [dateLe, Bool.and_eq_true, decide_eq_true_eq] at hWa hWc ⊢
  omega

theorem keyPresent_of_invoice (s e : Date) (cl : List String) (dfI : List InvoiceRow)
    (dfR : List ReceiptRow) (c : String) (i : InvoiceRow) (hi : i ∈ dfI)
    (hc : i.client = c) :
    keyPresent s e cl dfI dfR c (monthIdx i.sort_date) = true := by
  unfold keyPresent hasInvoiceIn
  have h : dfI.any (fun i' => decide (i'.client = c) &&
      decide (monthIdx i'.sort_date = monthIdx i.sort_date)) = true :=
    List.any_eq_true.mpr ⟨i, hi, by simp [hc]⟩
  rw [h]
  simp

theorem keyPresent_of_receipt (s e : Date) (cl : List String) (dfI : List InvoiceRow)
    (dfR : List ReceiptRow) (c : String) (r : ReceiptRow) (hr : r ∈ dfR)
    (hc : r.client = c) :
    keyPresent s e cl dfI dfR c (monthIdx r.sort_date) = true := by
  unfold keyPresent hasReceiptIn
  have h : dfR.any (fun r' => decide (r'.client = c) &&
      decide (monthIdx r'.sort_date = monthIdx r.sort_date)) = true :=
    List.any_eq_true.mpr ⟨r, hr, by simp [hc]⟩
  rw [h]
  simp

theorem invoiced_months_sum (dfI : List InvoiceRow) (c : String) (m0 : Nat)
    (L : List Nat) (hnd : L.Nodup) (hle : ∀ m' ∈ L, m' ≤ m0)
    (hcov : ∀ i ∈ dfI, i.client = c → monthIdx i.sort_date ≤ m0 →
      monthIdx i.sort_date ∈ L) :
    (L.map (fun m' => invoicedIn dfI c m')).sum = invoicedUpTo dfI c m0 := by
  have h1 : ∀ m' : Nat, invoicedIn dfI c m' =
      (((dfI.filter (fun i => decide (i.client = c))).filter
        (fun i => decide (monthIdx i.sort_date = m'))).map (fun i => i.total)).sum := by
    intro m'
    unfold invoicedIn
    rw [filter_filter_and]
  rw [List.map_congr_left (fun m' _ => h1 m'),
    sum_buckets (dfI.filter (fun i => decide (i.client = c))) (fun i => i.total)
      (fun i => monthIdx i.sort_date) L hnd]
  unfold invoicedUpTo
  rw [← filter_filter_and]
  have hfe : (dfI.filter (fun i => decide (i.client = c))).filter
      (fun i => decide (monthIdx i.sort_date ∈ L)) =
    (dfI.filter (fun i => decide (i.client = c))).filter
      (fun i => decide (monthIdx i.sort_date ≤ m0)) := by
    apply List.filter_congr
    intro i hi
    rcases List.mem_filter.mp hi with ⟨hiI, hic⟩
    by_cases hm : monthIdx i.sort_date ≤ m0
    · rw [decide_eq_true (hcov i hiI (of_decide_eq_true hic) hm), decide_eq_true hm]
    · rw [decide_eq_false hm, decide_eq_false (fun hmem => hm (hle _ hmem))]
  rw [hfe]

theorem received_months_sum (dfR : List ReceiptRow) (c : String) (m0 : Nat)
    (L : List Nat) (hnd : L.Nodup) (hle : ∀ m' ∈ L, m' ≤ m0)
    (hcov : ∀ r ∈ dfR, r.client = c → monthIdx r.sort_date ≤ m0 →
      monthIdx r.sort_date ∈ L) :
    (L.map (fun m' => receivedIn dfR c m')).sum = receivedUpTo dfR c m0 := by
  have h1 : ∀ m' : Nat, receivedIn dfR c m' =
      (((dfR.filter (fun r => decide (r.client = c))).filter
        (fun r => decide (monthIdx r.sort_date = m'))).map (fun r => r.amount)).sum := by
    intro m'
    unfold receivedIn
    rw [filter_filter_and]
  rw [List.map_congr_left (fun m' _ => h1 m'),
    sum_buckets (dfR.filter (fun r => decide (r.client = c))) (fun r => r.amount)
      (fun r => monthIdx r.sort_date) L hnd]
  unfold receivedUpTo
  rw [← filter_filter_and]
  have hfe : (dfR.filter (fun r => decide (r.client = c))).filter
      (fun r => decide (monthIdx r.sort_date ∈ L)) =
    (dfR.filter (fun r => decide (r.client = c))).filter
      (fun r => decide (monthIdx r.sort_date ≤ m0)) := by
    apply List.filter_congr
    intro r hr
    rcases List.mem_filter.mp hr with ⟨hrR, hrc⟩
    by_cases hm : monthIdx r.sort_date ≤ m0
    · rw [decide_eq_true (hcov r hrR (of_decide_eq_true hrc) hm), decide_eq_true hm]
    · rw [decide_eq_false hm, decide_eq_false (fun hmem => hm (hle _ hmem))]
  rw [hfe]

/-- **Claim C3.** In the output of `compute_monthly_client_balances`,
for every client, consecutive monthly rows chain: the later row's `open`
equals the earlier row's `balance` (first conjunct — the window filter
cannot break the chain because the kept month set is convex and every
activity month is a row); and every output row's `balance` is the
cumulative sum of (invoiced − received) over all of that client's
history from inception up to that row's month — the cumulative sum is
computed before the rows are filtered to `[start_date, end_date]`
(second conjunct). -/
theorem compute_monthly_client_balances_spec :
    (∀ (s e : Date) (dfI : List InvoiceRow) (dfR : List ReceiptRow)
        (cl : List String) (c : String),
      List.Chain' (fun r₁ r₂ => r₂.opening = r₁.balance)
        ((compute_monthly_client_balances s e dfI dfR cl).filter
          (fun r => decide (r.client = c)))) ∧
    (∀ (s e : Date) (dfI : List InvoiceRow) (dfR : List ReceiptRow)
        (cl : List String) (r : BalanceRow),
      r ∈ compute_monthly_client_balances s e dfI dfR cl →
      r.balance = cumNet dfI dfR r.client (monthIdx r.sort_date)) := by
  constructor
  · intro s e dfI dfR cl c
    rw [compute_filter_client_eq, List.chain'_map]
    exact scanBal_filter_chain _ _ (windowPred_convex s e) 0 _
      ((pairwise_lt_monthSpan _).filter _)
  · intro s e dfI dfR cl r hr
    have hrf : r ∈ (compute_monthly_client_balances s e dfI dfR cl).filter
        (fun r' => decide (r'.client = r.client)) :=
      List.mem_filter.mpr ⟨hr, by simp⟩
    rw [compute_filter_client_eq] at hrf
    rcases List.mem_map.mp hrf with ⟨q, hq, hqr⟩
    have hq' : q ∈ scanBal
        (fun m => invoicedIn dfI r.client m - receivedIn dfR r.client m) 0
        ((monthSpan (candMonths s e dfI dfR)).filter
          (fun m => keyPresent s e cl dfI dfR r.client m)) :=
      (List.mem_filter.mp hq).1
    rcases scanBal_mem_split _ _ _ _ hq' with ⟨pre, post, hsplit, _, h2⟩
    have hrd : r.sort_date = monthStart q.1 := by rw [← hqr]; rfl
    have hrb : r.balance = q.2.2 := by rw [← hqr]; rfl
    have hmidx : monthIdx r.sort_date = q.1 := by rw [hrd, monthIdx_monthStart]
    have hpwM : ((monthSpan (candMonths s e dfI dfR)).filter
        (fun m => keyPresent s e cl dfI dfR r.client m)).Pairwise (· < ·) :=
      (pairwise_lt_monthSpan _).filter _
    rw [hsplit] at hpwM
    rcases List.pairwise_append.mp hpwM with ⟨_, hrest, hcross⟩
    have hpost := (List.pairwise_cons.mp hrest).1
    have hndM : (pre ++ q.1 :: post).Nodup :=
      hpwM.imp (fun h => Nat.ne_of_lt h)
    have hLsub : (pre ++ [q.1]).Sublist (pre ++ q.1 :: post) :=
      (List.Sublist.cons₂ q.1 (List.nil_sublist post)).append_left pre
    have hLnd : (pre ++ [q.1]).Nodup := hndM.sublist hLsub
    have hLle : ∀ m' ∈ pre ++ [q.1], m' ≤ q.1 := by
      intro m' hm'
      rcases List.mem_append.mp hm' with h | h
      · exact Nat.le_of_lt (hcross m' h q.1 (List.mem_cons_self _ _))
      · rw [List.mem_singleton.mp h]
    have hmemM : ∀ m', keyPresent s e cl dfI dfR r.client m' = true →
        m' ∈ candMonths s e dfI dfR → m' ≤ q.1 → m' ∈ pre ++ [q.1] := by
      intro m' hkp hcand hle'
      have hmem : m' ∈ pre ++ q.1 :: post := by
        rw [← hsplit]
        exact List.mem_filter.mpr ⟨mem_monthSpan _ _ hcand, hkp⟩
      rcases List.mem_append.mp hmem with h | h
      · exact List.mem_append.mpr (Or.inl h)
      · rcases List.mem_cons.mp h with h | h
        · exact List.mem_append.mpr (Or.inr (by rw [h]; exact List.mem_singleton.mpr rfl))
        · exact absurd hle' (Nat.not_le_of_lt (hpost m' h))
    have hcovI : ∀ i ∈ dfI, i.client = r.client → monthIdx i.sort_date ≤ q.1 →
        monthIdx i.sort_date ∈ pre ++ [q.1] := by
      intro i hi hic hile
      refine hmemM _ (keyPresent_of_invoice s e cl dfI dfR r.client i hi hic) ?_ hile
      unfold candMonths
      exact List.mem_append.mpr (Or.inl (List.mem_append.mpr
        (Or.inr (List.mem_map_of_mem _ hi))))
    have hcovR : ∀ x ∈ dfR, x.client = r.client → monthIdx x.sort_date ≤ q.1 →
        monthIdx x.sort_date ∈ pre ++ [q.1] := by
      intro x hx hxc hxle
      refine hmemM _ (keyPresent_of_receipt s e cl dfI dfR r.client x hx hxc) ?_ hxle
      unfold candMonths
      exact List.mem_append.mpr (Or.inr (List.mem_map_of_mem _ hx))
    have hfold : q.2.2 = ((pre ++ [q.1]).map
        (fun m => invoicedIn dfI r.client m - receivedIn dfR r.client m)).sum := by
      rw [h2]
      simp [List.map_append, List.sum_append]
    rw [hrb, hmidx, hfold, sum_map_sub_int]
    unfold cumNet
    rw [invoiced_months_sum dfI r.client q.1 (pre ++ [q.1]) hLnd hLle hcovI,
      received_months_sum dfR r.client q.1 (pre ++ [q.1]) hLnd hLle hcovR]

/-- Witness for C3's cumulative-balance conjunct: a January invoice of
100 with a February–March window; the February row carries balance 100
from the pre-window month. -/
theorem compute_monthly_client_balances_spec_witness :
    (⟨"C1", ⟨2024, 2, 1⟩, 100, 0, 0, 100⟩ : BalanceRow).balance =
      cumNet [⟨"C1", "INV-1", ⟨2024, 1, 10⟩, ⟨2024, 1, 10⟩, 100⟩] []
        (⟨"C1", ⟨2024, 2, 1⟩, 100, 0, 0, 100⟩ : BalanceRow).client
        (monthIdx (⟨"C1", ⟨2024, 2, 1⟩, 100, 0, 0, 100⟩ : BalanceRow).sort_date) :=
  compute_monthly_client_balances_spec.2 ⟨2024, 2, 1⟩ ⟨2024, 3, 31⟩
    [⟨"C1", "INV-1", ⟨2024, 1, 10⟩, ⟨2024, 1, 10⟩, 100⟩] [] ["C1"]
    ⟨"C1", ⟨2024, 2, 1⟩, 100, 0, 0, 100⟩ (by decide)
